import Mathlib

/-!
Shallow embedding of the word-pattern-matcher engine (`wordfinder.py`) and
verification of the frozen claims about its specification.

Modelling conventions:
* Wall-clock time (`time.time()`) is modelled by a finite list of future clock
  readings carried in the matcher state; once the list is exhausted the clock
  is frozen at the last value read.  Each call to the clock consumes one
  reading, exactly mirroring the call sites in the source.
* `TimeoutError` is the only exception the embedded code can raise, modelled
  with `Except`.  (In the source, all other exception sites — `re.error`,
  `KeyError` — are caught locally and turned into data; UI diagnostics via
  `st.warning`/`st.error` are side-effect-free for the result value and are
  dropped.)
* Python regexes built by `pattern_to_regex` are modelled as token lists with
  an anchored matching function; `re.escape(c)` is a regex matching exactly
  the literal character `c`, hence token `RTok.lit c`.
* Python `str` is `String`, `int` lengths are `Nat` (all lengths are
  non-negative in every reachable state), dicts keyed by variable names are
  association lists with in-place update, and sets are lists used only
  through membership.
-/

namespace WordFinder

/-- The one exception class that can cross function boundaries in the
engine: `TimeoutError` raised by `PatternMatcher._time_check`. -/
inductive PyErr
  | timeoutError
deriving Repr, DecidableEq

/-- A compiled-regex token.  `pattern_to_regex` emits `.` for `.`, `.*` for
`*`, a verbatim character class for `[...]`, and `re.escape`d literal
characters for everything else. -/
inductive RTok
  | lit (c : Char)
  | dot
  | star
  | cls (body : List Char)
deriving Repr, DecidableEq

/-- Mutable fields of `PatternMatcher` plus the modelled clock.
`startTime` and `timeout` mirror `self.start_time` / `self.timeout`;
`regexCache` mirrors `self._regex_cache`; `clocks`/`lastTime` model the
stream of `time.time()` readings. -/
structure PState where
  startTime : Nat
  timeout : Nat
  clocks : List Nat
  lastTime : Nat
  regexCache : List (String × List RTok)
deriving Repr, DecidableEq

/-- One call to `time.time()`: consume the next reading, or report the
frozen last value when none remain. -/
def pyTime (st : PState) : Nat × PState :=
  match st.clocks with
  | [] => (st.lastTime, st)
  | t :: rest => (t, { st with clocks := rest, lastTime := t })

/-- `PatternMatcher._time_check`: raise `TimeoutError` iff the current
reading exceeds `start_time + timeout`. -/
def time_check (st : PState) : Except PyErr PState :=
  let (now, st') := pyTime st
  if st'.startTime + st'.timeout < now then .error .timeoutError else .ok st'

/-- Python `str.strip` on a character list: drop whitespace from both
ends. -/
def trimChars (l : List Char) : List Char :=
  ((l.dropWhile Char.isWhitespace).reverse.dropWhile Char.isWhitespace).reverse

/-- Python `str.strip`. -/
def strTrim (s : String) : String := String.mk (trimChars s.toList)

/-- Python `str.lower` (ASCII suffices for this engine). -/
def strLower (s : String) : String := String.mk (s.toList.map Char.toLower)

/-- Python `str.split(';')` on a character list. -/
def splitOnSemi : List Char → List (List Char)
  | [] => [[]]
  | ';' :: rest => [] :: splitOnSemi rest
  | c :: rest =>
      match splitOnSemi rest with
      | [] => [[c]]
      | g :: gs => (c :: g) :: gs

/-- Lexicographic code-point comparison of character lists (Python `<` on
strings). -/
def strLtChars : List Char → List Char → Bool
  | [], [] => false
  | [], _ :: _ => true
  | _ :: _, [] => false
  | a :: as, b :: bs => if a < b then true else if b < a then false else strLtChars as bs

/-- Python `<` on strings. -/
def strLt (a b : String) : Bool := strLtChars a.toList b.toList

/-- The 21 consonants, as the class text `#` is replaced with.  (In the
source the class letters come from joining a Python `set`, whose order is
unspecified; only the set of letters is observable through matching, so we
fix one order.) -/
def consonantClass : List Char := "[bcdfghjklmnpqrstvwxyz]".toList

/-- The 5 vowels, as the class text `@` is replaced with. -/
def vowelClass : List Char := "[aeiou]".toList

/-- Python `str.replace` of a single character by a string. -/
def replaceChar (c : Char) (repl : List Char) : List Char → List Char
  | [] => []
  | x :: xs => if x = c then repl ++ replaceChar c repl xs else x :: replaceChar c repl xs

/-- Items of a character class body: `a-b` is a range, anything else is a
single character (a `-` at the end is literal, as in Python). -/
def clsItems : List Char → List (Char × Char)
  | [] => []
  | a :: '-' :: b :: rest => (a, b) :: clsItems rest
  | a :: rest => (a, a) :: clsItems rest

/-- Membership of a character in a verbatim class body, with `^` negation as
in Python regex classes. -/
def clsMember (body : List Char) (c : Char) : Bool :=
  match body with
  | '^' :: rest => !((clsItems rest).any fun p => p.1 ≤ c && c ≤ p.2)
  | _ => (clsItems body).any fun p => p.1 ≤ c && c ≤ p.2

/-- The character-scanning loop of `pattern_to_regex` (after the `#`/`@`
replacement): `.` → any, `*` → `.*`, `[` → verbatim class up to the first
`]` (literal `[` when unclosed), `\\c` → literal `c`, a trailing lone `\\` →
literal `\\`, anything else → literal. -/
def tokenizeFuel : Nat → List Char → List RTok
  | 0, _ => []
  | _ + 1, [] => []
  | f + 1, '.' :: rest => RTok.dot :: tokenizeFuel f rest
  | f + 1, '*' :: rest => RTok.star :: tokenizeFuel f rest
  | f + 1, '[' :: rest =>
      if rest.contains ']' then
        RTok.cls (rest.takeWhile (fun c => c ≠ ']')) ::
          tokenizeFuel f (rest.drop ((rest.takeWhile (fun c => c ≠ ']')).length + 1))
      else
        RTok.lit '[' :: tokenizeFuel f rest
  | f + 1, '\\' :: c :: rest => RTok.lit c :: tokenizeFuel f rest
  | _ + 1, ['\\'] => [RTok.lit '\\']
  | f + 1, c :: rest => RTok.lit c :: tokenizeFuel f rest

/-- Wrapper supplying sufficient fuel: every step consumes at least one
character, so the input length bounds the recursion depth. -/
def tokenize (l : List Char) : List RTok := tokenizeFuel l.length l

/-- Anchored matching of a token list against a word, the semantics of
`re.match("^...$", word)` for the regexes `pattern_to_regex` emits. -/
def rmatchFuel : Nat → List RTok → List Char → Bool
  | 0, _, _ => false
  | _ + 1, [], [] => true
  | _ + 1, [], _ :: _ => false
  | _ + 1, RTok.lit _ :: _, [] => false
  | f + 1, RTok.lit c :: ts, d :: ds => c = d && rmatchFuel f ts ds
  | _ + 1, RTok.dot :: _, [] => false
  | f + 1, RTok.dot :: ts, _ :: ds => rmatchFuel f ts ds
  | _ + 1, RTok.cls _ :: _, [] => false
  | f + 1, RTok.cls b :: ts, d :: ds => clsMember b d && rmatchFuel f ts ds
  | f + 1, RTok.star :: ts, ds =>
      rmatchFuel f ts ds ||
        (match ds with
         | [] => false
         | _ :: ds' => rmatchFuel f (RTok.star :: ts) ds')

/-- Wrapper supplying sufficient fuel: every step shortens the token list
or the word, so their combined length bounds the recursion depth. -/
def rmatch (ts : List RTok) (ds : List Char) : Bool :=
  rmatchFuel (ts.length + ds.length + 1) ts ds

/-- Lookup in `self._regex_cache` (`pattern in self._regex_cache`). -/
def cacheLookup (p : String) : List (String × List RTok) → Option (List RTok)
  | [] => none
  | (k, v) :: rest => if k = p then some v else cacheLookup p rest

/-- `PatternMatcher.pattern_to_regex`.  Note the source first looks the raw
pattern up in the cache, then destructively replaces `#`/`@` by class text,
and finally stores the compiled form under the replaced string — not under
the original key. -/
def pattern_to_regex (pattern : String) (st : PState) : List RTok × PState :=
  match cacheLookup pattern st.regexCache with
  | some r => (r, st)
  | none =>
      let replaced := replaceChar '@' vowelClass (replaceChar '#' consonantClass pattern.toList)
      let toks := tokenize replaced
      (toks, { st with regexCache := (String.mk replaced, toks) :: st.regexCache })

/-- The part of `matches_pattern` after the length-constraint gate: the `*`
shortcut, the empty-pattern shortcut, then regex matching. -/
def matchesPatternCore (word pattern : String) (st : PState) : Bool × PState :=
  if pattern = "*" then (true, st)
  else if pattern = "" then (decide (word = ""), st)
  else
    let (toks, st') := pattern_to_regex pattern st
    (rmatch toks word.toList, st')

/-- `PatternMatcher.matches_pattern`: an optional `(min, max)` length
constraint is applied before any shortcut. -/
def matches_pattern (word pattern : String) (lengthConstraint : Option (Nat × Nat))
    (st : PState) : Bool × PState :=
  match lengthConstraint with
  | some (mn, mx) =>
      if mn ≤ word.length ∧ word.length ≤ mx then matchesPatternCore word pattern st
      else (false, st)
  | none => matchesPatternCore word pattern st

/-- Python `word[::-1]`. -/
def strRev (s : String) : String := String.mk s.toList.reverse

/-- Insertion step for sorting characters (Python `sorted` on letters). -/
def insertChar (c : Char) : List Char → List Char
  | [] => [c]
  | x :: xs => if x < c then x :: insertChar c xs else c :: x :: xs

/-- Python `sorted` on a list of characters. -/
def sortChars (l : List Char) : List Char := l.foldr insertChar []

/-- Insertion step for sorting words (Python `list.sort` / `sorted`,
code-point order). -/
def insertWord (w : String) : List String → List String
  | [] => [w]
  | x :: xs => if strLt x w then x :: insertWord w xs else w :: x :: xs

/-- Python `sorted` on a list of words. -/
def sortWords (l : List String) : List String := l.foldr insertWord []

/-- Python `set(...)` viewed as a duplicate-free list keeping first
occurrences (observable only through membership and, for the intersection
mode, through a final `sorted`). -/
def pyDedupFuel {α : Type} [DecidableEq α] : Nat → List α → List α
  | 0, _ => []
  | _ + 1, [] => []
  | f + 1, x :: xs => x :: pyDedupFuel f (xs.filter (fun y => y ≠ x))

/-- Wrapper supplying sufficient fuel: filtering never lengthens the
remainder, so the input length bounds the recursion depth. -/
def pyDedup {α : Type} [DecidableEq α] (l : List α) : List α :=
  pyDedupFuel l.length l

/-- The line processing of `WordlistCache.load_wordlist`: trim, lowercase,
keep non-empty all-alphabetic words, in file order. -/
def processLines (lines : List String) : List String :=
  (lines.map (fun l => strLower (strTrim l))).filter
    (fun w => w ≠ "" && w.toList.all Char.isAlpha)

/-- The read-only word index built by `WordlistCache`: sorted word list,
per-length sorted buckets (with the dict's first-seen key order), and the
membership set. -/
structure WordIndex where
  words : List String
  wordlist : List String
  byLength : Nat → List String
  byLengthKeys : List Nat
  wordsSet : List String

/-- `WordlistCache.load_wordlist` on an in-memory list of lines. -/
def mkIndex (lines : List String) : WordIndex :=
  let ws := processLines lines
  { words := ws
    wordlist := sortWords ws
    byLength := fun l => sortWords (ws.filter (fun w => w.length = l))
    byLengthKeys := pyDedup (ws.map String.length)
    wordsSet := ws }

/-- A parsed variable definition (`parse_variable_definition`'s result
dict). -/
structure VarDef where
  varName : Char
  minLen : Nat
  maxLen : Nat
  pattern : String
deriving Repr, DecidableEq

/-- Characters allowed as variable names: `[A-R]`. -/
def isVarNameChar (c : Char) : Bool := 'A' ≤ c && c ≤ 'R'

/-- Greedy `\d+`: leading digits and the remainder. -/
def takeDigits (l : List Char) : List Char × List Char :=
  (l.takeWhile Char.isDigit, l.dropWhile Char.isDigit)

/-- Numeric value of a digit string (`int(...)`). -/
def digitsVal (l : List Char) : Nat :=
  l.foldl (fun n c => n * 10 + (c.toNat - '0'.toNat)) 0

/-- The `(.*)\)` tail of the definition regex: the text before the last `)`
of the remainder, if any `)` occurs (greedy `.*` backtracking to the last
closing parenthesis; trailing text after it is ignored by `re.match`). -/
def lastParenSplit (l : List Char) : Option (List Char) :=
  match l.reverse.dropWhile (fun c => c ≠ ')') with
  | ')' :: rest => some rest.reverse
  | _ => none

/-- `PatternMatcher.parse_variable_definition`, the regex
`([A-R])=\((\d+)(?:-(\d+))?:(.*)\)` applied with `re.match`, followed by the
length-validity check and the empty-pattern default.  (The source's second,
exact-length-only regex can only match strings the first one already
matches, so the fallback never produces a result and is not modelled
separately.) -/
def parse_variable_definition (definition : String) : Option VarDef :=
  match definition.toList with
  | n :: '=' :: '(' :: rest =>
      if isVarNameChar n then
        let (d1, r1) := takeDigits rest
        if d1.isEmpty then none
        else
          match r1 with
          | '-' :: r2 =>
              let (d2, r3) := takeDigits r2
              if d2.isEmpty then none
              else
                match r3 with
                | ':' :: r4 =>
                    match lastParenSplit r4 with
                    | none => none
                    | some pat =>
                        if digitsVal d1 = 0 ∨ digitsVal d2 < digitsVal d1 then none
                        else some ⟨n, digitsVal d1, digitsVal d2,
                          if pat.isEmpty then "*" else String.mk pat⟩
                | _ => none
          | ':' :: r2 =>
              match lastParenSplit r2 with
              | none => none
              | some pat =>
                  if digitsVal d1 = 0 then none
                  else some ⟨n, digitsVal d1, digitsVal d1,
                    if pat.isEmpty then "*" else String.mk pat⟩
          | _ => none
      else none
  | _ => none

/-- `PatternMatcher.length_constraint_from_pattern`: an optional `N:` or
`N-M:` prefix; malformed bounds yield no constraint and leave the pattern
string untouched. -/
def length_constraint_from_pattern (patternStr : String) : Option (Nat × Nat) × String :=
  let l := patternStr.toList
  let (d1, r1) := takeDigits l
  if d1.isEmpty then (none, patternStr)
  else
    match r1 with
    | ':' :: rest =>
        if 0 < digitsVal d1 then (some (digitsVal d1, digitsVal d1), String.mk rest)
        else (none, patternStr)
    | '-' :: r2 =>
        let (d2, r3) := takeDigits r2
        if d2.isEmpty then (none, patternStr)
        else
          match r3 with
          | ':' :: rest =>
              if 0 < digitsVal d1 ∧ digitsVal d1 ≤ digitsVal d2 then
                (some (digitsVal d1, digitsVal d2), String.mk rest)
              else (none, patternStr)
          | _ => (none, patternStr)
    | _ => (none, patternStr)

/-- Python `pattern_str.startswith('/')`. -/
def startsWithSlash (s : String) : Bool :=
  match s.toList with
  | '/' :: _ => true
  | _ => false

/-- Python `range(a, b+1)` as a list. -/
def rangeList (a b : Nat) : List Nat := List.range' a (b + 1 - a)

/-- The per-candidate filter of `process_anagram_pattern`: the bounded
length check, the minimum length check, the letter-multiset superset check,
and, when no `*` is present, the exact extra-letter count check. -/
def anagramKeep (base : List Char) (dots stars : Nat) (w : String) : Bool :=
  !(stars = 0 && w.length ≠ base.length + dots)
    && !(w.length < base.length + dots)
    && (base.all fun c => base.count c ≤ w.toList.count c)
    && !(stars = 0 && w.length - base.length ≠ dots)

/-- The candidate loop of `process_anagram_pattern`, with its
every-1000-words deadline checkpoint. -/
def anagramScan (base : List Char) (dots stars : Nat) :
    List String → Nat → PState → Except PyErr (List String × PState)
  | [], _, st => .ok ([], st)
  | w :: ws, i, st =>
      match (if i % 1000 = 0 then time_check st else .ok st) with
      | .error e => .error e
      | .ok st =>
          match anagramScan base dots stars ws (i + 1) st with
          | .error e => .error e
          | .ok (ms, st) =>
              .ok (if anagramKeep base dots stars w then w :: ms else ms, st)

/-- Candidate pruning of `process_anagram_pattern`: the single exact-length
bucket when bounded (`*` absent; `min_len == max_len` always holds there,
making the source's range loop unreachable), else every bucket of length at
least the minimum, in the dict's key-insertion order. -/
def anagramCandidates (idx : WordIndex) (base : List Char) (dots stars : Nat) :
    List String :=
  if stars = 0 then idx.byLength (base.length + dots)
  else (idx.byLengthKeys.filter (fun l => base.length + dots ≤ l)).flatMap idx.byLength

/-- `PatternMatcher.process_anagram_pattern`.  Returns `none` when the
pattern does not start with `/`. -/
def process_anagram_pattern (idx : WordIndex) (patternStr : String) (st : PState) :
    Except PyErr (Option (List String) × PState) :=
  if !(startsWithSlash patternStr) then .ok (none, st)
  else
    match time_check st with
    | .error e => .error e
    | .ok st =>
        let content := String.mk (patternStr.toList.drop 1)
        let dots := content.toList.count '.'
        let stars := content.toList.count '*'
        let baseLetters := sortChars (content.toList.filter Char.isAlpha)
        match anagramScan baseLetters dots stars
            (anagramCandidates idx baseLetters dots stars) 0 st with
        | .error e => .error e
        | .ok (ms, st) => .ok (some ms, st)

/-- The candidate loop of `find_matches_simple_pattern`, with its
every-2000-words deadline checkpoint, matching a pre-compiled regex. -/
def simpleScan (toks : List RTok) :
    List String → Nat → PState → Except PyErr (List String × PState)
  | [], _, st => .ok ([], st)
  | w :: ws, i, st =>
      match (if i % 2000 = 0 then time_check st else .ok st) with
      | .error e => .error e
      | .ok st =>
          match simpleScan toks ws (i + 1) st with
          | .error e => .error e
          | .ok (ms, st) => .ok (if rmatch toks w.toList then w :: ms else ms, st)

/-- `PatternMatcher.find_matches_simple_pattern`: strip an optional length
prefix, prune candidates through the length buckets (else the full sorted
list), compile the residual pattern once, and scan. -/
def find_matches_simple_pattern (idx : WordIndex) (patternStr : String) (st : PState) :
    Except PyErr (List String × PState) :=
  match time_check st with
  | .error e => .error e
  | .ok st =>
      let (lengthConstraint, cleanPattern) := length_constraint_from_pattern patternStr
      let candidates :=
        match lengthConstraint with
        | some (mn, mx) => (rangeList mn mx).flatMap idx.byLength
        | none => idx.wordlist
      if candidates.isEmpty then .ok ([], st)
      else
        let (toks, st) := pattern_to_regex cleanPattern st
        simpleScan toks candidates 0 st

/-- A match result tuple `(word1, word2, decomp)` as produced by the
engine: primary word, optional secondary word, variable bindings. -/
abbrev EqResult := String × Option String × List (Char × String)

/-- Python dict assignment `d[k] = v`: update in place, keep first-insert
position, append new keys at the end. -/
def dictInsert {β : Type} (k : Char) (v : β) : List (Char × β) → List (Char × β)
  | [] => [(k, v)]
  | (k', v') :: rest => if k' = k then (k', v) :: rest else (k', v') :: dictInsert k v rest

/-- Python dict lookup (`k in d` / `d[k]`). -/
def dictGet? {β : Type} (k : Char) : List (Char × β) → Option β
  | [] => none
  | (k', v') :: rest => if k' = k then some v' else dictGet? k rest

/-- One entry of the solver's per-reference structure list: variable name,
fixed length, subpattern, and whether the reference carried `~`. -/
structure VarDetail where
  name : Char
  len : Nat
  pattern : String
  rev : Bool
deriving Repr, DecidableEq

/-- Sum of the per-variable lengths (`total_len`). -/
def totalLenOf (ds : List VarDetail) : Nat := (ds.map VarDetail.len).sum

/-- `re.findall(r'(~?[A-R])', s)`: scan left to right, at each position
matching an optional `~` followed by a variable name, else advancing one
character.  Each hit is returned structured as (reversed?, name). -/
def findVarRefs : List Char → List (Bool × Char)
  | [] => []
  | '~' :: c :: rest =>
      if isVarNameChar c then (true, c) :: findVarRefs rest
      else findVarRefs (c :: rest)
  | c :: rest =>
      if isVarNameChar c then (false, c) :: findVarRefs rest
      else findVarRefs rest

/-- Outcome of the single-clause reference-parsing `while` loop:
a complete structure, an invalid structure (no reference matches at the
current position), or an abort (`return []`: undefined variable or a
range-length variable). -/
inductive ParseOut
  | done (details : List VarDetail)
  | invalid
  | abort
deriving Repr, DecidableEq

/-- The single-clause parsing loop of `solve_equation`: per iteration a
deadline checkpoint, then `re.match(r'(~?)([A-R])', pattern[pos:])`, a
definedness check, and an exact-length check. -/
def parseRefsLoop (vars : List (Char × VarDef)) :
    List Char → PState → Except PyErr (ParseOut × PState)
  | [], st => .ok (.done [], st)
  | '~' :: c :: rest, st =>
      match time_check st with
      | .error e => .error e
      | .ok st =>
          if isVarNameChar c then
            match dictGet? c vars with
            | none => .ok (.abort, st)
            | some vi =>
                if vi.minLen ≠ vi.maxLen then .ok (.abort, st)
                else
                  match parseRefsLoop vars rest st with
                  | .error e => .error e
                  | .ok (.done ds, st) =>
                      .ok (.done (⟨c, vi.minLen, vi.pattern, true⟩ :: ds), st)
                  | .ok (o, st) => .ok (o, st)
          else .ok (.invalid, st)
  | c :: rest, st =>
      match time_check st with
      | .error e => .error e
      | .ok st =>
          if isVarNameChar c then
            match dictGet? c vars with
            | none => .ok (.abort, st)
            | some vi =>
                if vi.minLen ≠ vi.maxLen then .ok (.abort, st)
                else
                  match parseRefsLoop vars rest st with
                  | .error e => .error e
                  | .ok (.done ds, st) =>
                      .ok (.done (⟨c, vi.minLen, vi.pattern, false⟩ :: ds), st)
                  | .ok (o, st) => .ok (o, st)
          else .ok (.invalid, st)

/-- The two-clause structure loop over already-found references: per
reference a deadline checkpoint, a definedness check and an exact-length
check; any failure makes the configuration invalid (`valid_config = False`,
`break`). -/
def parseStructure (vars : List (Char × VarDef)) :
    List (Bool × Char) → PState → Except PyErr (Option (List VarDetail) × PState)
  | [], st => .ok (some [], st)
  | (rev, name) :: rest, st =>
      match time_check st with
      | .error e => .error e
      | .ok st =>
          match dictGet? name vars with
          | none => .ok (none, st)
          | some vi =>
              if vi.minLen ≠ vi.maxLen then .ok (none, st)
              else
                match parseStructure vars rest st with
                | .error e => .error e
                | .ok (some ds, st) =>
                    .ok (some (⟨name, vi.minLen, vi.pattern, rev⟩ :: ds), st)
                | .ok (none, st) => .ok (none, st)

/-- Slice a candidate word into consecutive per-variable segments, reverse a
segment when its reference carried `~`, check it against the variable's
subpattern with an exact-length constraint, and record the checked value in
the bindings.  Shared verbatim by the single-clause word loop and the
two-clause decomposition loop, whose source bodies are identical. -/
def decompose (chars : List Char) :
    List VarDetail → Nat → List (Char × String) → PState →
      Bool × List (Char × String) × PState
  | [], _, acc, st => (true, acc, st)
  | vd :: rest, pos, acc, st =>
      let part := String.mk ((chars.drop pos).take vd.len)
      let partToCheck := if vd.rev then strRev part else part
      let (b, st) := matches_pattern partToCheck vd.pattern (some (vd.len, vd.len)) st
      if b then decompose chars rest (pos + vd.len) (dictInsert vd.name partToCheck acc) st
      else (false, acc, st)

/-- The single-clause candidate word loop: deadline checkpoint per word,
decompose, and emit `(word, None, decomp)` on success. -/
def eqSingleScan (details : List VarDetail) :
    List String → PState → Except PyErr (List EqResult × PState)
  | [], st => .ok ([], st)
  | w :: ws, st =>
      match time_check st with
      | .error e => .error e
      | .ok st =>
          match decompose w.toList details 0 [] st with
          | (true, decomp, st) =>
              match eqSingleScan details ws st with
              | .error e => .error e
              | .ok (rs, st) => .ok ((w, none, decomp) :: rs, st)
          | (false, _, st) => eqSingleScan details ws st

/-- Candidate pairs `(length, word)` for the self-reverse branch: every
length bucket in the variable's range. -/
def branch1Candidates (idx : WordIndex) (vi : VarDef) : List (Nat × String) :=
  (rangeList vi.minLen vi.maxLen).flatMap (fun l => (idx.byLength l).map (fun w => (l, w)))

/-- The candidate-collection loop of the self-reverse branch: deadline
checkpoint per word, filter by the variable's subpattern with an
exact-length constraint equal to the current bucket length. -/
def branch1Scan (p : String) :
    List (Nat × String) → PState → Except PyErr (List String × PState)
  | [], st => .ok ([], st)
  | (len, w) :: rest, st =>
      match time_check st with
      | .error e => .error e
      | .ok st =>
          let (b, st) := matches_pattern w p (some (len, len)) st
          match branch1Scan p rest st with
          | .error e => .error e
          | .ok (ms, st) => .ok (if b then w :: ms else ms, st)

/-- Python `tuple(sorted((word1, word2)))`. -/
def sortedPair (a b : String) : String × String := if strLt b a then (b, a) else (a, b)

/-- The pairing loop of the self-reverse branch: skip words equal to their
own reverse, pair a word with its reverse when the reverse is also a
candidate, and deduplicate by the sorted pair. -/
def pairScan (cands : List String) (vn : Char) :
    List String → List (String × String) → PState → Except PyErr (List EqResult × PState)
  | [], _, st => .ok ([], st)
  | w :: ws, found, st =>
      match time_check st with
      | .error e => .error e
      | .ok st =>
          let w2 := strRev w
          if w = w2 then pairScan cands vn ws found st
          else if w2 ∈ cands then
            if sortedPair w w2 ∈ found then pairScan cands vn ws found st
            else
              match pairScan cands vn ws (sortedPair w w2 :: found) st with
              | .error e => .error e
              | .ok (rs, st) => .ok ((w, some w2, [(vn, w)]) :: rs, st)
          else pairScan cands vn ws found st

/-- Reconstruct `word2` by concatenating, in the second clause's reference
order, each variable's decomposed value, reversing it when the reference
carries `~`.  A missing binding (the source's `KeyError` guard) yields
`none`, which skips the word. -/
def buildWord2 (parts : List (Char × String)) : List (Bool × Char) → Option String
  | [] => some ""
  | (rev, n) :: rest =>
      match dictGet? n parts with
      | none => none
      | some v =>
          match buildWord2 parts rest with
          | none => none
          | some t => some ((if rev then strRev v else v) ++ t)

/-- Strict ordering on binding pairs, Python tuple comparison. -/
def pairLt (a b : Char × String) : Bool :=
  decide (a.1 < b.1) || (decide (a.1 = b.1) && strLt a.2 b.2)

/-- Insertion step for `sorted` on binding pairs. -/
def insertPairSorted (p : Char × String) :
    List (Char × String) → List (Char × String)
  | [] => [p]
  | x :: xs => if pairLt x p then x :: insertPairSorted p xs else p :: x :: xs

/-- Python `tuple(sorted(parts.items()))`, the deduplication key of the
sequence-reversal branch. -/
def sortPairs (l : List (Char × String)) : List (Char × String) :=
  l.foldr insertPairSorted []

/-- The candidate word loop of the sequence-reversal branch: deadline
checkpoint per word, decompose `word1`, rebuild `word2`, require membership
of `word2` in the word set, and deduplicate by the sorted binding map only
when `word1 == word2`. -/
def seqRevScan (idx : WordIndex) (details : List VarDetail) (refs2 : List (Bool × Char)) :
    List String → List (List (Char × String)) → PState →
      Except PyErr (List EqResult × PState)
  | [], _, st => .ok ([], st)
  | w :: ws, found, st =>
      match time_check st with
      | .error e => .error e
      | .ok st =>
          match decompose w.toList details 0 [] st with
          | (false, _, st) => seqRevScan idx details refs2 ws found st
          | (true, parts, st) =>
              match buildWord2 parts refs2 with
              | none => seqRevScan idx details refs2 ws found st
              | some w2 =>
                  if w2 ∈ idx.wordsSet then
                    if w = w2 ∧ sortPairs parts ∈ found then
                      seqRevScan idx details refs2 ws found st
                    else
                      match seqRevScan idx details refs2 ws (sortPairs parts :: found) st with
                      | .error e => .error e
                      | .ok (rs, st) => .ok ((w, some w2, parts) :: rs, st)
                  else seqRevScan idx details refs2 ws found st

/-- Outcome of the two-clause self-reverse branch: shape not recognised,
undefined variable (immediate `return []` from `solve_equation`), or
results found (`handled = True`). -/
inductive B1Out
  | noMatch
  | abortEmpty
  | found (rs : List EqResult)
deriving Repr, DecidableEq

/-- Outcome of the two-clause sequence-reversal branch: shape not
recognised, invalid configuration (`valid_config = False`, `handled`
untouched), or results found (`handled = True`). -/
inductive B2Out
  | noMatch
  | invalidConfig
  | found (rs : List EqResult)
deriving Repr, DecidableEq

/-- The shape test of the self-reverse branch: `re.match(r'^([A-R])$', p1)`
and `re.match(r'^~([A-R])$', p2)` with equal group names; returns the
variable name on success. -/
def selfReversePair? (p1 p2 : String) : Option Char :=
  match p1.toList, p2.toList with
  | [c1], ['~', c2] =>
      if isVarNameChar c1 ∧ isVarNameChar c2 ∧ c1 = c2 then some c1 else none
  | _, _ => none

/-- The self-reverse branch of `solve_equation`: clause 1 is `^([A-R])$`,
clause 2 is `^~([A-R])$` with the same name. -/
def branchSelfReverse (idx : WordIndex) (vars : List (Char × VarDef))
    (p1 p2 : String) (st : PState) : Except PyErr (B1Out × PState) :=
  match selfReversePair? p1 p2 with
  | none => .ok (.noMatch, st)
  | some vn =>
      match dictGet? vn vars with
      | none => .ok (.abortEmpty, st)
      | some vi =>
          match branch1Scan vi.pattern (branch1Candidates idx vi) st with
          | .error e => .error e
          | .ok (cands, st) =>
              match pairScan cands vn cands [] st with
              | .error e => .error e
              | .ok (rs, st) => .ok (.found rs, st)

/-- The sequence-reversal branch of `solve_equation`: both clauses are pure
concatenations of references to the same variable names, the second listing
the names in reverse order.  Note the source tests this with a plain `if`,
not in mutual exclusion with the self-reverse branch. -/
def branchSeqReversal (idx : WordIndex) (vars : List (Char × VarDef))
    (p1 p2 : String) (st : PState) : Except PyErr (B2Out × PState) :=
  let refs1 := findVarRefs p1.toList
  let refs2 := findVarRefs p2.toList
  if ¬refs1.isEmpty ∧ refs1.length = refs2.length
      ∧ refs1.map Prod.snd = p1.toList.filter (fun c => c ≠ '~')
      ∧ refs2.map Prod.snd = p2.toList.filter (fun c => c ≠ '~')
      ∧ refs1.map Prod.snd = (refs2.map Prod.snd).reverse then
    match parseStructure vars refs1 st with
    | .error e => .error e
    | .ok (none, st) => .ok (.invalidConfig, st)
    | .ok (some ds, st) =>
        match seqRevScan idx ds refs2 (idx.byLength (totalLenOf ds)) [] st with
        | .error e => .error e
        | .ok (rs, st) => .ok (.found rs, st)
  else .ok (.noMatch, st)

/-- The body of `solve_equation` after the `start_time` re-capture:
guard clauses, the single-clause solver and the two-clause solver. -/
def solve_equation_body (idx : WordIndex) (vars : List (Char × VarDef))
    (patterns : List String) (st : PState) : Except PyErr (List EqResult × PState) :=
  if patterns.isEmpty then .ok ([], st)
  else if vars.isEmpty then .ok ([], st)
  else
    match patterns with
    | [pattern] =>
        let refs := findVarRefs pattern.toList
        if refs.map Prod.snd = pattern.toList.filter (fun c => c ≠ '~') then
          match parseRefsLoop vars pattern.toList st with
          | .error e => .error e
          | .ok (.done ds, st) => eqSingleScan ds (idx.byLength (totalLenOf ds)) st
          | .ok (_, st) => .ok ([], st)
        else .ok ([], st)
    | [p1, p2] =>
        match branchSelfReverse idx vars p1 p2 st with
        | .error e => .error e
        | .ok (.abortEmpty, st) => .ok ([], st)
        | .ok (b1, st) =>
            match branchSeqReversal idx vars p1 p2 st with
            | .error e => .error e
            | .ok (b2, st) =>
                let rs1 := match b1 with | .found rs => rs | _ => []
                let handled1 := match b1 with | .found _ => true | _ => false
                let rs2 := match b2 with | .found rs => rs | _ => []
                let handled2 := match b2 with | .found _ => true | _ => false
                if handled1 || handled2 then .ok (rs1 ++ rs2, st) else .ok ([], st)
    | _ => .ok ([], st)

/-- `PatternMatcher.solve_equation`.  Its very first statement re-captures
`self.start_time = time.time()`, replacing the deadline captured at
dispatch start. -/
def solve_equation (idx : WordIndex) (vars : List (Char × VarDef))
    (patterns : List String) (st : PState) : Except PyErr (List EqResult × PState) :=
  let (t, st1) := pyTime st
  solve_equation_body idx vars patterns { st1 with startTime := t }

/-- Clause classification of `execute_query`: a variable definition iff the
clause contains `=` and its first character is an uppercase letter up to
`R`. -/
def isVarDefClause (part : String) : Bool :=
  match part.toList with
  | [] => false
  | c :: _ => part.toList.contains '=' && (c.isAlpha && c.isUpper && c ≤ 'R')

/-- The variable-definition parsing loop of `execute_query`.  Note the
deadline checkpoint per definition: in the source this loop runs BEFORE the
`try` block, so a `TimeoutError` raised here propagates out of
`execute_query`. -/
def parseDefsLoop : List String → List (Char × VarDef) → PState →
    Except PyErr (List (Char × VarDef) × PState)
  | [], vars, st => .ok (vars, st)
  | d :: ds, vars, st =>
      match time_check st with
      | .error e => .error e
      | .ok st =>
          match parse_variable_definition d with
          | some vd => parseDefsLoop ds (dictInsert vd.varName vd vars) st
          | none => parseDefsLoop ds vars st

/-- One clause of the intersection mode: its match set (a Python `set`,
modelled as a duplicate-free list). -/
def intersectCurrent (idx : WordIndex) (p : String) (st : PState) :
    Except PyErr (List String × PState) :=
  if startsWithSlash p then
    match process_anagram_pattern idx p st with
    | .error e => .error e
    | .ok (some ms, st) => .ok (pyDedup ms, st)
    | .ok (none, st) => .ok ([], st)
  else
    match find_matches_simple_pattern idx p st with
    | .error e => .error e
    | .ok (ms, st) => .ok (pyDedup ms, st)

/-- The intersection loop of `execute_query`: deadline checkpoint per
clause, progressive left-to-right intersection, short-circuit on an empty
running intersection. -/
def intersectLoop (idx : WordIndex) :
    List String → Option (List String) → PState →
      Except PyErr (Option (List String) × PState)
  | [], common, st => .ok (common, st)
  | p :: ps, common, st =>
      match time_check st with
      | .error e => .error e
      | .ok st =>
          match intersectCurrent idx p st with
          | .error e => .error e
          | .ok (cur, st) =>
              let common' := match common with
                | none => cur
                | some c => c.filter (fun w => w ∈ cur)
              if common'.isEmpty then .ok (some common', st)
              else intersectLoop idx ps (some common') st

/-- The mode-selection `try` body of `execute_query`: equation mode when any
variables and any search clauses exist, else single-pattern
(anagram/simple), intersection, or definition-only. -/
def dispatch (idx : WordIndex) (vars : List (Char × VarDef))
    (searchPatternsRaw : List String) (st : PState) :
    Except PyErr ((List EqResult × String) × PState) :=
  if ¬vars.isEmpty ∧ ¬searchPatternsRaw.isEmpty then
    match solve_equation idx vars searchPatternsRaw st with
    | .error e => .error e
    | .ok (rs, st) => .ok ((rs, "equation"), st)
  else
    match searchPatternsRaw with
    | [p] =>
        if startsWithSlash p then
          match process_anagram_pattern idx p st with
          | .error e => .error e
          | .ok (o, st) =>
              .ok (((o.getD []).map (fun m => (m, none, [])), "anagram"), st)
        else
          match find_matches_simple_pattern idx p st with
          | .error e => .error e
          | .ok (ms, st) => .ok ((ms.map (fun m => (m, none, [])), "simple"), st)
    | [] => .ok (([], "definition_only"), st)
    | _ =>
        match intersectLoop idx searchPatternsRaw none st with
        | .error e => .error e
        | .ok (common, st) =>
            let rs := match common with
              | some c => sortWords c
              | none => []
            .ok ((rs.map (fun m => (m, none, [])), "intersection"), st)

/-- `PatternMatcher.execute_query`: capture the dispatch start time, reset
the per-query regex cache, split and classify clauses, parse variable
definitions (each with a deadline checkpoint OUTSIDE the `try` block), then
dispatch.  A `TimeoutError` raised inside the `try` body is converted to
the `(None, "timeout")` pair; one raised during definition parsing
propagates to the caller.  The final state returned alongside the pair is a
modelling artifact (Python returns only the pair); in the timeout-catch
case the state from before dispatch is reported. -/
def execute_query (idx : WordIndex) (query : String) (st : PState) :
    Except PyErr ((Option (List EqResult) × String) × PState) :=
  let (t, st) := pyTime st
  let st := { st with startTime := t, regexCache := [] }
  let parts := (((splitOnSemi (strTrim query).toList).map
    (fun l => strTrim (String.mk l))).filter (fun p => p ≠ ""))
  let variableDefsRaw := parts.filter isVarDefClause
  let searchPatternsRaw := parts.filter (fun p => !(isVarDefClause p))
  match parseDefsLoop variableDefsRaw [] st with
  | .error e => .error e
  | .ok (vars, st) =>
      match dispatch idx vars searchPatternsRaw st with
      | .error PyErr.timeoutError => .ok ((none, "timeout"), st)
      | .ok ((rs, ty), st') => .ok ((some rs, ty), st')

/-- The decomposition part of a formatted equation line: binding values in
sorted-key order, joined by " - ". -/
def formatDecomp (bindings : List (Char × String)) : String :=
  String.intercalate " - "
    ((sortChars (bindings.map Prod.fst)).map (fun k => (dictGet? k bindings).getD ""))

/-- One formatted equation-result line. -/
def formatEqLine (r : EqResult) : String :=
  match r.2.1 with
  | none => r.1 ++ "    (" ++ formatDecomp r.2.2 ++ ")"
  | some w2 => r.1 ++ " / " ++ w2 ++ "    (" ++ formatDecomp r.2.2 ++ ")"

/-- `format_results`: the external rendering step.  It receives the full
result sequence and truncates the DISPLAY after `max_disp` lines; the
engine output it consumes is already complete. -/
def format_results (results : Option (List EqResult)) (resultType : String)
    (maxDisp : Nat) : String :=
  match results with
  | none => "Query execution timed out."
  | some rs =>
      if rs.isEmpty ∧ resultType ≠ "definition_only" then "No matches found."
      else if rs.isEmpty then ""
      else
        let header := ["Found " ++ toString rs.length ++ " matches:", "---"]
        let body :=
          if resultType = "equation" then (rs.take maxDisp).map formatEqLine
          else (rs.take maxDisp).map (fun r => r.1)
        let trailer :=
          if maxDisp < rs.length then
            ["\n... (displaying " ++ toString maxDisp ++ " of " ++
              toString rs.length ++ " results)"]
          else []
        String.intercalate "\n" (header ++ body ++ trailer)

/-- The `PatternMatcher` constructor state: `start_time = time.time()`,
empty regex cache, the caller-supplied timeout. -/
def initState (timeout : Nat) (clocks : List Nat) : PState :=
  let (t, st) := pyTime
    { startTime := 0, timeout := timeout, clocks := clocks, lastTime := 0, regexCache := [] }
  { st with startTime := t }

/-- The search-button pipeline: construct the matcher, run the engine, then
render the engine's `(results, resultType)` pair with the display limit.
`maxResults` reaches only the rendering step. -/
def run_search (idx : WordIndex) (query : String) (maxResults timeout : Nat)
    (clocks : List Nat) : Except PyErr ((Option (List EqResult) × String) × String) :=
  match execute_query idx query (initState timeout clocks) with
  | .error e => .error e
  | .ok ((results, resultType), _) =>
      .ok ((results, resultType), format_results results resultType maxResults)

/-- A state with no pending clock readings and an ample timeout: every
deadline checkpoint passes (the clock stays frozen at 0). -/
def stNoClock : PState :=
  { startTime := 0, timeout := 1000, clocks := [], lastTime := 0, regexCache := [] }

/-! ### Helper lemmas -/

theorem replaceChar_of_not_mem (c : Char) (repl : List Char) (l : List Char)
    (h : c ∉ l) : replaceChar c repl l = l := by
  induction l with
  | nil => rfl
  | cons x xs ih =>
      simp only [List.mem_cons, not_or] at h
      simp [replaceChar, Ne.symm h.1, ih h.2]

theorem insertWord_perm (w : String) (l : List String) :
    (insertWord w l).Perm (w :: l) := by
  induction l with
  | nil => exact List.Perm.refl _
  | cons x xs ih =>
      unfold insertWord
      split
      · exact (ih.cons x).trans (List.Perm.swap w x xs)
      · exact List.Perm.refl _

theorem sortWords_perm (l : List String) : (sortWords l).Perm l := by
  induction l with
  | nil => exact List.Perm.refl _
  | cons x xs ih =>
      exact (insertWord_perm x (sortWords xs)).trans (ih.cons x)

theorem mem_sortWords {w : String} {l : List String} : w ∈ sortWords l ↔ w ∈ l :=
  (sortWords_perm l).mem_iff

theorem insertChar_perm (c : Char) (l : List Char) :
    (insertChar c l).Perm (c :: l) := by
  induction l with
  | nil => exact List.Perm.refl _
  | cons x xs ih =>
      unfold insertChar
      split
      · exact (ih.cons x).trans (List.Perm.swap c x xs)
      · exact List.Perm.refl _

theorem sortChars_perm (l : List Char) : (sortChars l).Perm l := by
  induction l with
  | nil => exact List.Perm.refl _
  | cons x xs ih =>
      exact (insertChar_perm x (sortChars xs)).trans (ih.cons x)

theorem count_sortChars (c : Char) (l : List Char) :
    (sortChars l).count c = l.count c :=
  (sortChars_perm l).count_eq c

theorem length_sortChars (l : List Char) : (sortChars l).length = l.length :=
  (sortChars_perm l).length_eq

theorem mem_pyDedupFuel {α : Type} [DecidableEq α] (a : α) :
    ∀ (f : Nat) (l : List α), l.length ≤ f → (a ∈ pyDedupFuel f l ↔ a ∈ l)
  | 0, l, h => by
      have : l = [] := List.length_eq_zero.mp (Nat.le_zero.mp h)
      subst this
      simp [pyDedupFuel]
  | f + 1, [], _ => by simp [pyDedupFuel]
  | f + 1, x :: xs, h => by
      have hf : (xs.filter (fun y => y ≠ x)).length ≤ f :=
        le_trans (List.length_filter_le _ _) (Nat.succ_le_succ_iff.mp h)
      have ih := mem_pyDedupFuel a f (xs.filter (fun y => y ≠ x)) hf
      simp only [pyDedupFuel, List.mem_cons, ih, List.mem_filter]
      by_cases hx : a = x
      · simp [hx]
      · simp [hx]

theorem mem_pyDedup {α : Type} [DecidableEq α] {a : α} {l : List α} :
    a ∈ pyDedup l ↔ a ∈ l :=
  mem_pyDedupFuel a l.length l le_rfl

theorem time_check_frozen (st : PState) (h1 : st.clocks = [])
    (h2 : st.lastTime ≤ st.startTime + st.timeout) : time_check st = .ok st := by
  simp [time_check, pyTime, h1, Nat.not_lt.mpr h2]

theorem anagramScan_frozen (base : List Char) (dots stars : Nat)
    (l : List String) (i : Nat) (st : PState) (h1 : st.clocks = [])
    (h2 : st.lastTime ≤ st.startTime + st.timeout) :
    anagramScan base dots stars l i st
      = .ok (l.filter (anagramKeep base dots stars), st) := by
  induction l generalizing i with
  | nil => rfl
  | cons w ws ih =>
      unfold anagramScan
      have hc : (if i % 1000 = 0 then time_check st else .ok st) = .ok st := by
        split
        · exact time_check_frozen st h1 h2
        · rfl
      rw [hc]
      simp only [ih, List.filter_cons]

theorem mem_byLength (lines : List String) (n : Nat) (w : String) :
    w ∈ (mkIndex lines).byLength n ↔ w ∈ processLines lines ∧ w.length = n := by
  simp [mkIndex, mem_sortWords, List.mem_filter]

theorem mem_byLengthKeys (lines : List String) (n : Nat) :
    n ∈ (mkIndex lines).byLengthKeys ↔ ∃ w ∈ processLines lines, w.length = n := by
  simp [mkIndex, mem_pyDedup, List.mem_map]

theorem allCount_iff (base wl : List Char) :
    ((base.all fun c => base.count c ≤ wl.count c) = true)
      ↔ ∀ c, base.count c ≤ wl.count c := by
  rw [List.all_eq_true]
  constructor
  · intro h c
    by_cases hc : c ∈ base
    · simpa using h c hc
    · simp [List.count_eq_zero.mpr hc]
  · intro h c _
    simpa using h c

theorem anagramKeep_stars0 (base : List Char) (dots : Nat) (w : String)
    (hlen : w.length = base.length + dots) :
    anagramKeep base dots 0 w = (base.all fun c => base.count c ≤ w.toList.count c) := by
  simp [anagramKeep, hlen, Nat.add_sub_cancel_left]

theorem anagramKeep_starsPos (base : List Char) (dots stars : Nat) (w : String)
    (hs : stars ≠ 0) :
    anagramKeep base dots stars w
      = (decide (base.length + dots ≤ w.length)
          && base.all fun c => base.count c ≤ w.toList.count c) := by
  simp only [anagramKeep, hs, decide_eq_true_eq, Bool.and_comm]
  by_cases hle : base.length + dots ≤ w.length
  · simp [hle, Nat.not_lt.mpr hle]
  · simp [hle, Nat.lt_of_not_le hle]

theorem anagramScan_subset (base : List Char) (dots stars : Nat) (l : List String) :
    ∀ (i : Nat) (st : PState) (ms : List String) (st' : PState),
      anagramScan base dots stars l i st = .ok (ms, st') → ∀ w ∈ ms, w ∈ l := by
  induction l with
  | nil =>
      intro i st ms st' h x hx
      simp [anagramScan] at h
      obtain ⟨rfl, rfl⟩ := h
      simp at hx
  | cons w ws ih =>
      intro i st ms st' h x hx
      unfold anagramScan at h
      cases hc : (if i % 1000 = 0 then time_check st else .ok st) with
      | error e => simp [hc] at h
      | ok st1 =>
          simp only [hc] at h
          cases hr : anagramScan base dots stars ws (i + 1) st1 with
          | error e => simp [hr] at h
          | ok q =>
              obtain ⟨ms1, st2⟩ := q
              simp only [hr, Except.ok.injEq, Prod.mk.injEq] at h
              obtain ⟨hms, _⟩ := h
              rw [← hms] at hx
              by_cases hk : anagramKeep base dots stars w = true
              · rw [if_pos hk] at hx
                rcases List.mem_cons.mp hx with rfl | hx'
                · exact List.mem_cons_self _ _
                · exact List.mem_cons_of_mem _ (ih (i + 1) st1 ms1 st2 hr x hx')
              · rw [if_neg hk] at hx
                exact List.mem_cons_of_mem _ (ih (i + 1) st1 ms1 st2 hr x hx)

theorem simpleScan_subset (toks : List RTok) (l : List String) :
    ∀ (i : Nat) (st : PState) (ms : List String) (st' : PState),
      simpleScan toks l i st = .ok (ms, st') → ∀ w ∈ ms, w ∈ l := by
  induction l with
  | nil =>
      intro i st ms st' h x hx
      simp [simpleScan] at h
      obtain ⟨rfl, rfl⟩ := h
      simp at hx
  | cons w ws ih =>
      intro i st ms st' h x hx
      unfold simpleScan at h
      cases hc : (if i % 2000 = 0 then time_check st else .ok st) with
      | error e => simp [hc] at h
      | ok st1 =>
          simp only [hc] at h
          cases hr : simpleScan toks ws (i + 1) st1 with
          | error e => simp [hr] at h
          | ok q =>
              obtain ⟨ms1, st2⟩ := q
              simp only [hr, Except.ok.injEq, Prod.mk.injEq] at h
              obtain ⟨hms, _⟩ := h
              rw [← hms] at hx
              by_cases hk : rmatch toks w.toList = true
              · rw [if_pos hk] at hx
                rcases List.mem_cons.mp hx with rfl | hx'
                · exact List.mem_cons_self _ _
                · exact List.mem_cons_of_mem _ (ih (i + 1) st1 ms1 st2 hr x hx')
              · rw [if_neg hk] at hx
                exact List.mem_cons_of_mem _ (ih (i + 1) st1 ms1 st2 hr x hx)

theorem branch1Scan_subset (p : String) (l : List (Nat × String)) :
    ∀ (st : PState) (ms : List String) (st' : PState),
      branch1Scan p l st = .ok (ms, st') → ∀ w ∈ ms, ∃ n, (n, w) ∈ l := by
  induction l with
  | nil =>
      intro st ms st' h x hx
      simp [branch1Scan] at h
      obtain ⟨rfl, rfl⟩ := h
      simp at hx
  | cons nw rest ih =>
      obtain ⟨len, w⟩ := nw
      intro st ms st' h x hx
      unfold branch1Scan at h
      cases hc : time_check st with
      | error e => simp [hc] at h
      | ok st1 =>
          simp only [hc] at h
          cases hr : branch1Scan p rest (matches_pattern w p (some (len, len)) st1).2 with
          | error e => simp [hr] at h
          | ok q =>
              obtain ⟨ms1, st2⟩ := q
              simp only [hr, Except.ok.injEq, Prod.mk.injEq] at h
              obtain ⟨hms, _⟩ := h
              rw [← hms] at hx
              by_cases hk : (matches_pattern w p (some (len, len)) st1).1 = true
              · rw [if_pos hk] at hx
                rcases List.mem_cons.mp hx with rfl | hx'
                · exact ⟨len, List.mem_cons_self _ _⟩
                · obtain ⟨n, hn⟩ := ih _ ms1 st2 hr x hx'
                  exact ⟨n, List.mem_cons_of_mem _ hn⟩
              · rw [if_neg hk] at hx
                obtain ⟨n, hn⟩ := ih _ ms1 st2 hr x hx
                exact ⟨n, List.mem_cons_of_mem _ hn⟩

theorem eqSingleScan_mem (details : List VarDetail) (l : List String) :
    ∀ (st : PState) (rs : List EqResult) (st' : PState),
      eqSingleScan details l st = .ok (rs, st') →
      ∀ r ∈ rs, r.1 ∈ l ∧ r.2.1 = none := by
  induction l with
  | nil =>
      intro st rs st' h r hr
      simp [eqSingleScan] at h
      obtain ⟨rfl, rfl⟩ := h
      simp at hr
  | cons w ws ih =>
      intro st rs st' h r hr
      unfold eqSingleScan at h
      cases hc : time_check st with
      | error e => simp [hc] at h
      | ok st1 =>
          simp only [hc] at h
          rcases hd : decompose w.toList details 0 [] st1 with ⟨b, decomp, st2⟩
          cases b with
          | true =>
              simp only [hd] at h
              cases hr2 : eqSingleScan details ws st2 with
              | error e => simp [hr2] at h
              | ok q =>
                  obtain ⟨rs1, st3⟩ := q
                  simp only [hr2, Except.ok.injEq, Prod.mk.injEq] at h
                  obtain ⟨hrs, _⟩ := h
                  rw [← hrs] at hr
                  rcases List.mem_cons.mp hr with rfl | hr'
                  · exact ⟨List.mem_cons_self _ _, rfl⟩
                  · obtain ⟨hm, hn⟩ := ih st2 rs1 st3 hr2 r hr'
                    exact ⟨List.mem_cons_of_mem _ hm, hn⟩
          | false =>
              simp only [hd] at h
              obtain ⟨hm, hn⟩ := ih st2 rs st' h r hr
              exact ⟨List.mem_cons_of_mem _ hm, hn⟩

theorem pairScan_mem (cands : List String) (vn : Char) (l : List String) :
    ∀ (found : List (String × String)) (st : PState) (rs : List EqResult) (st' : PState),
      pairScan cands vn l found st = .ok (rs, st') →
      ∀ r ∈ rs, r.1 ∈ l ∧ ∃ w2, r.2.1 = some w2 ∧ w2 ∈ cands := by
  induction l with
  | nil =>
      intro found st rs st' h r hr
      simp [pairScan] at h
      obtain ⟨rfl, rfl⟩ := h
      simp at hr
  | cons w ws ih =>
      intro found st rs st' h r hr
      unfold pairScan at h
      cases hc : time_check st with
      | error e => simp [hc] at h
      | ok st1 =>
          simp only [hc] at h
          by_cases h1 : w = strRev w
          · rw [if_pos h1] at h
            obtain ⟨hm, hx⟩ := ih found st1 rs st' h r hr
            exact ⟨List.mem_cons_of_mem _ hm, hx⟩
          · rw [if_neg h1] at h
            by_cases h2 : strRev w ∈ cands
            · rw [if_pos h2] at h
              by_cases h3 : sortedPair w (strRev w) ∈ found
              · rw [if_pos h3] at h
                obtain ⟨hm, hx⟩ := ih found st1 rs st' h r hr
                exact ⟨List.mem_cons_of_mem _ hm, hx⟩
              · rw [if_neg h3] at h
                cases hp : pairScan cands vn ws (sortedPair w (strRev w) :: found) st1 with
                | error e => simp [hp] at h
                | ok q =>
                    obtain ⟨rs1, st2⟩ := q
                    simp only [hp, Except.ok.injEq, Prod.mk.injEq] at h
                    obtain ⟨hrs, _⟩ := h
                    rw [← hrs] at hr
                    rcases List.mem_cons.mp hr with rfl | hr'
                    · exact ⟨List.mem_cons_self _ _, strRev w, rfl, h2⟩
                    · obtain ⟨hm, hx⟩ := ih _ st1 rs1 st2 hp r hr'
                      exact ⟨List.mem_cons_of_mem _ hm, hx⟩
            · rw [if_neg h2] at h
              obtain ⟨hm, hx⟩ := ih found st1 rs st' h r hr
              exact ⟨List.mem_cons_of_mem _ hm, hx⟩

theorem seqRevScan_mem (idx : WordIndex) (details : List VarDetail)
    (refs2 : List (Bool × Char)) (l : List String) :
    ∀ (found : List (List (Char × String))) (st : PState) (rs : List EqResult)
      (st' : PState),
      seqRevScan idx details refs2 l found st = .ok (rs, st') →
      ∀ r ∈ rs, r.1 ∈ l ∧ ∃ w2, r.2.1 = some w2 ∧ w2 ∈ idx.wordsSet := by
  induction l with
  | nil =>
      intro found st rs st' h r hr
      simp [seqRevScan] at h
      obtain ⟨rfl, rfl⟩ := h
      simp at hr
  | cons w ws ih =>
      intro found st rs st' h r hr
      unfold seqRevScan at h
      cases hc : time_check st with
      | error e => simp [hc] at h
      | ok st1 =>
          simp only [hc] at h
          rcases hd : decompose w.toList details 0 [] st1 with ⟨b, parts, st2⟩
          cases b with
          | false =>
              simp only [hd] at h
              obtain ⟨hm, hx⟩ := ih found st2 rs st' h r hr
              exact ⟨List.mem_cons_of_mem _ hm, hx⟩
          | true =>
              simp only [hd] at h
              cases hb : buildWord2 parts refs2 with
              | none =>
                  simp only [hb] at h
                  obtain ⟨hm, hx⟩ := ih found st2 rs st' h r hr
                  exact ⟨List.mem_cons_of_mem _ hm, hx⟩
              | some w2 =>
                  simp only [hb] at h
                  by_cases h1 : w2 ∈ idx.wordsSet
                  · rw [if_pos h1] at h
                    by_cases h2 : w = w2 ∧ sortPairs parts ∈ found
                    · rw [if_pos h2] at h
                      obtain ⟨hm, hx⟩ := ih found st2 rs st' h r hr
                      exact ⟨List.mem_cons_of_mem _ hm, hx⟩
                    · rw [if_neg h2] at h
                      cases hs : seqRevScan idx details refs2 ws (sortPairs parts :: found) st2 with
                      | error e => simp [hs] at h
                      | ok q =>
                          obtain ⟨rs1, st3⟩ := q
                          simp only [hs, Except.ok.injEq, Prod.mk.injEq] at h
                          obtain ⟨hrs, _⟩ := h
                          rw [← hrs] at hr
                          rcases List.mem_cons.mp hr with rfl | hr'
                          · exact ⟨List.mem_cons_self _ _, w2, rfl, h1⟩
                          · obtain ⟨hm, hx⟩ := ih _ st2 rs1 st3 hs r hr'
                            exact ⟨List.mem_cons_of_mem _ hm, hx⟩
                  · rw [if_neg h1] at h
                    obtain ⟨hm, hx⟩ := ih found st2 rs st' h r hr
                    exact ⟨List.mem_cons_of_mem _ hm, hx⟩

theorem process_anagram_frozen (idx : WordIndex) (p : String) (st : PState)
    (h1 : st.clocks = []) (h2 : st.lastTime ≤ st.startTime + st.timeout)
    (hs : startsWithSlash p = true) :
    process_anagram_pattern idx p st
      = .ok (some ((anagramCandidates idx
            (sortChars ((String.mk (p.toList.drop 1)).toList.filter Char.isAlpha))
            ((String.mk (p.toList.drop 1)).toList.count '.')
            ((String.mk (p.toList.drop 1)).toList.count '*')).filter
          (anagramKeep
            (sortChars ((String.mk (p.toList.drop 1)).toList.filter Char.isAlpha))
            ((String.mk (p.toList.drop 1)).toList.count '.')
            ((String.mk (p.toList.drop 1)).toList.count '*'))), st) := by
  simp only [process_anagram_pattern, hs, Bool.not_true, Bool.false_eq_true, if_false,
    time_check_frozen st h1 h2, anagramScan_frozen _ _ _ _ _ st h1 h2]

theorem anagramCandidates_subset (idx : WordIndex) (base : List Char) (dots stars : Nat)
    (hbl : ∀ n w, w ∈ idx.byLength n → w ∈ idx.wordlist) :
    ∀ w ∈ anagramCandidates idx base dots stars, w ∈ idx.wordlist := by
  intro w hw
  unfold anagramCandidates at hw
  by_cases hs : stars = 0
  · rw [if_pos hs] at hw
    exact hbl _ _ hw
  · rw [if_neg hs] at hw
    obtain ⟨n, _, hwn⟩ := List.mem_flatMap.mp hw
    exact hbl n w hwn

theorem branch1Candidates_mem (idx : WordIndex) (vi : VarDef) (n : Nat) (w : String)
    (h : (n, w) ∈ branch1Candidates idx vi) : w ∈ idx.byLength n := by
  unfold branch1Candidates at h
  obtain ⟨l, _, hmem⟩ := List.mem_flatMap.mp h
  obtain ⟨w', hw', heq⟩ := List.mem_map.mp hmem
  obtain ⟨h1, h2⟩ := Prod.mk.injEq .. ▸ heq
  subst h1
  subst h2
  exact hw'

theorem find_matches_simple_subset (idx : WordIndex) (p : String) (st : PState)
    (ms : List String) (st' : PState)
    (hbl : ∀ n w, w ∈ idx.byLength n → w ∈ idx.wordlist)
    (h : find_matches_simple_pattern idx p st = .ok (ms, st')) :
    ∀ w ∈ ms, w ∈ idx.wordlist := by
  unfold find_matches_simple_pattern at h
  cases hc : time_check st with
  | error e => simp [hc] at h
  | ok st1 =>
      simp only [hc] at h
      rcases hlc : length_constraint_from_pattern p with ⟨_ | ⟨mn, mx⟩, clean⟩
      · simp only [hlc] at h
        by_cases hemp : idx.wordlist.isEmpty = true
        · rw [if_pos hemp] at h
          simp only [Except.ok.injEq, Prod.mk.injEq] at h
          obtain ⟨h1, _⟩ := h
          intro w hw
          rw [← h1] at hw
          simp at hw
        · rw [if_neg hemp] at h
          rcases hpr : pattern_to_regex clean st1 with ⟨toks, st2⟩
          simp only [hpr] at h
          exact simpleScan_subset toks idx.wordlist 0 st2 ms st' h
      · simp only [hlc] at h
        by_cases hemp : ((rangeList mn mx).flatMap idx.byLength).isEmpty = true
        · rw [if_pos hemp] at h
          simp only [Except.ok.injEq, Prod.mk.injEq] at h
          obtain ⟨h1, _⟩ := h
          intro w hw
          rw [← h1] at hw
          simp at hw
        · rw [if_neg hemp] at h
          rcases hpr : pattern_to_regex clean st1 with ⟨toks, st2⟩
          simp only [hpr] at h
          intro w hw
          have hcand := simpleScan_subset toks _ 0 st2 ms st' h w hw
          obtain ⟨n, _, hwn⟩ := List.mem_flatMap.mp hcand
          exact hbl n w hwn

theorem process_anagram_subset (idx : WordIndex) (p : String) (st : PState)
    (o : Option (List String)) (st' : PState)
    (hbl : ∀ n w, w ∈ idx.byLength n → w ∈ idx.wordlist)
    (h : process_anagram_pattern idx p st = .ok (o, st')) :
    ∀ ms, o = some ms → ∀ w ∈ ms, w ∈ idx.wordlist := by
  by_cases hs : startsWithSlash p = true
  · simp only [process_anagram_pattern, hs, Bool.not_true, Bool.false_eq_true,
      if_false] at h
    cases hc : time_check st with
    | error e => simp [hc] at h
    | ok st1 =>
        simp only [hc] at h
        cases ha : anagramScan (sortChars (List.filter Char.isAlpha p.data.tail))
            (List.count '.' p.data.tail) (List.count '*' p.data.tail)
            (anagramCandidates idx (sortChars (List.filter Char.isAlpha p.data.tail))
              (List.count '.' p.data.tail) (List.count '*' p.data.tail)) 0 st1 with
        | error e => simp [ha] at h
        | ok q =>
            obtain ⟨ms1, st2⟩ := q
            simp only [String.toList, List.drop_one] at h
            rw [ha] at h
            simp only [Except.ok.injEq, Prod.mk.injEq] at h
            obtain ⟨h1, _⟩ := h
            intro ms hms w hw
            rw [← h1] at hms
            have hms' : ms1 = ms := by simpa using hms
            subst hms'
            have hcand := anagramScan_subset _ _ _ _ 0 st1 ms1 st2 ha w hw
            exact anagramCandidates_subset idx _ _ _ hbl w hcand
  · have hs' : startsWithSlash p = false := by
      revert hs
      cases startsWithSlash p <;> simp
    simp only [process_anagram_pattern, hs', Bool.not_false, if_true,
      Except.ok.injEq, Prod.mk.injEq] at h
    obtain ⟨h1, _⟩ := h
    intro ms hms w hw
    rw [← h1] at hms
    simp at hms

theorem intersectCurrent_subset (idx : WordIndex) (p : String) (st : PState)
    (ms : List String) (st' : PState)
    (hbl : ∀ n w, w ∈ idx.byLength n → w ∈ idx.wordlist)
    (h : intersectCurrent idx p st = .ok (ms, st')) :
    ∀ w ∈ ms, w ∈ idx.wordlist := by
  unfold intersectCurrent at h
  by_cases hs : startsWithSlash p = true
  · rw [if_pos hs] at h
    cases ha : process_anagram_pattern idx p st with
    | error e => simp [ha] at h
    | ok q =>
        obtain ⟨o, st1⟩ := q
        cases o with
        | some ms1 =>
            simp only [ha, Except.ok.injEq, Prod.mk.injEq] at h
            obtain ⟨h1, _⟩ := h
            intro w hw
            rw [← h1] at hw
            have hw' : w ∈ ms1 := mem_pyDedup.mp hw
            exact process_anagram_subset idx p st (some ms1) st1 hbl ha ms1 rfl w hw'
        | none =>
            simp only [ha, Except.ok.injEq, Prod.mk.injEq] at h
            obtain ⟨h1, _⟩ := h
            intro w hw
            rw [← h1] at hw
            simp at hw
  · rw [if_neg hs] at h
    cases hf : find_matches_simple_pattern idx p st with
    | error e => simp [hf] at h
    | ok q =>
        obtain ⟨ms1, st1⟩ := q
        simp only [hf, Except.ok.injEq, Prod.mk.injEq] at h
        obtain ⟨h1, _⟩ := h
        intro w hw
        rw [← h1] at hw
        have hw' : w ∈ ms1 := mem_pyDedup.mp hw
        exact find_matches_simple_subset idx p st ms1 st1 hbl hf w hw'

theorem intersectLoop_subset (idx : WordIndex) (ps : List String) :
    ∀ (common : Option (List String)) (st : PState) (common' : Option (List String))
      (st' : PState),
      intersectLoop idx ps common st = .ok (common', st') →
      (∀ n w, w ∈ idx.byLength n → w ∈ idx.wordlist) →
      (∀ c, common = some c → ∀ w ∈ c, w ∈ idx.wordlist) →
      ∀ c', common' = some c' → ∀ w ∈ c', w ∈ idx.wordlist := by
  induction ps with
  | nil =>
      intro common st common' st' h hbl hinv c' hc' w hw
      simp only [intersectLoop, Except.ok.injEq, Prod.mk.injEq] at h
      obtain ⟨h1, _⟩ := h
      rw [← h1] at hc'
      exact hinv c' hc' w hw
  | cons p ps ih =>
      intro common st common' st' h hbl hinv c' hc' w hw
      unfold intersectLoop at h
      cases hc : time_check st with
      | error e => simp [hc] at h
      | ok st1 =>
          simp only [hc] at h
          cases hcur : intersectCurrent idx p st1 with
          | error e => simp [hcur] at h
          | ok q =>
              obtain ⟨cur, st2⟩ := q
              simp only [hcur] at h
              have hcur_sub := intersectCurrent_subset idx p st1 cur st2 hbl hcur
              cases common with
              | none =>
                  by_cases hemp : cur.isEmpty = true
                  · rw [if_pos hemp] at h
                    simp only [Except.ok.injEq, Prod.mk.injEq] at h
                    obtain ⟨h1, _⟩ := h
                    rw [← h1] at hc'
                    have : cur = c' := by simpa using hc'
                    subst this
                    exact hcur_sub w hw
                  · rw [if_neg hemp] at h
                    refine ih (some cur) st2 common' st' h hbl ?_ c' hc' w hw
                    intro c hcr
                    have : cur = c := by simpa using hcr
                    subst this
                    exact hcur_sub
              | some c0 =>
                  by_cases hemp : (c0.filter (fun x => x ∈ cur)).isEmpty = true
                  · rw [if_pos hemp] at h
                    simp only [Except.ok.injEq, Prod.mk.injEq] at h
                    obtain ⟨h1, _⟩ := h
                    rw [← h1] at hc'
                    have : c0.filter (fun x => x ∈ cur) = c' := by simpa using hc'
                    subst this
                    exact hinv c0 rfl w (List.mem_filter.mp hw).1
                  · rw [if_neg hemp] at h
                    refine ih _ st2 common' st' h hbl ?_ c' hc' w hw
                    intro c hcr
                    have : c0.filter (fun x => x ∈ cur) = c := by simpa using hcr
                    subst this
                    intro x hx
                    exact hinv c0 rfl x (List.mem_filter.mp hx).1

theorem branchSelfReverse_mem (idx : WordIndex) (vars : List (Char × VarDef))
    (p1 p2 : String) (st : PState) (rs : List EqResult) (st' : PState)
    (hbl : ∀ n w, w ∈ idx.byLength n → w ∈ idx.wordlist)
    (h : branchSelfReverse idx vars p1 p2 st = .ok (.found rs, st')) :
    ∀ r ∈ rs, r.1 ∈ idx.wordlist ∧ r.2.1.getD r.1 ∈ idx.wordlist := by
  unfold branchSelfReverse at h
  cases hv : selfReversePair? p1 p2 with
  | none => simp [hv] at h
  | some vn =>
      simp only [hv] at h
      cases hg : dictGet? vn vars with
      | none => simp [hg] at h
      | some vi =>
          simp only [hg] at h
          cases hscan : branch1Scan vi.pattern (branch1Candidates idx vi) st with
          | error e => simp [hscan] at h
          | ok q =>
              obtain ⟨cands, st1⟩ := q
              simp only [hscan] at h
              cases hp : pairScan cands vn cands [] st1 with
              | error e => simp [hp] at h
              | ok q2 =>
                  obtain ⟨prs, st2⟩ := q2
                  simp only [hp, Except.ok.injEq, Prod.mk.injEq, B1Out.found.injEq] at h
                  obtain ⟨h1, _⟩ := h
                  subst h1
                  intro r hr
                  obtain ⟨hm, w2, hw2, hw2c⟩ :=
                    pairScan_mem cands vn cands [] st1 prs st2 hp r hr
                  have hcw : ∀ w ∈ cands, w ∈ idx.wordlist := by
                    intro w hw
                    obtain ⟨n, hn⟩ := branch1Scan_subset vi.pattern
                      (branch1Candidates idx vi) st cands st1 hscan w hw
                    exact hbl n w (branch1Candidates_mem idx vi n w hn)
                  refine ⟨hcw r.1 hm, ?_⟩
                  rw [hw2]
                  exact hcw w2 hw2c

theorem branchSeqReversal_mem (idx : WordIndex) (vars : List (Char × VarDef))
    (p1 p2 : String) (st : PState) (rs : List EqResult) (st' : PState)
    (hbl : ∀ n w, w ∈ idx.byLength n → w ∈ idx.wordlist)
    (hws : ∀ w, w ∈ idx.wordsSet → w ∈ idx.wordlist)
    (h : branchSeqReversal idx vars p1 p2 st = .ok (.found rs, st')) :
    ∀ r ∈ rs, r.1 ∈ idx.wordlist ∧ r.2.1.getD r.1 ∈ idx.wordlist := by
  simp only [branchSeqReversal, String.toList] at h
  split at h
  · cases hps : parseStructure vars (findVarRefs p1.data) st with
    | error e => simp [hps] at h
    | ok q =>
        obtain ⟨od, st1⟩ := q
        cases od with
        | none => simp [hps] at h
        | some ds =>
            simp only [hps] at h
            cases hsc : seqRevScan idx ds (findVarRefs p2.data)
                (idx.byLength (totalLenOf ds)) [] st1 with
            | error e => simp [hsc] at h
            | ok q2 =>
                obtain ⟨rs1, st2⟩ := q2
                simp only [hsc] at h
                injection h with hpair
                injection hpair with hb hst
                injection hb with h1
                subst h1
                intro r hr
                obtain ⟨hm, w2, hw2, hw2s⟩ := seqRevScan_mem idx ds
                  (findVarRefs p2.data) (idx.byLength (totalLenOf ds)) [] st1
                  rs1 st2 hsc r hr
                refine ⟨hbl _ _ hm, ?_⟩
                rw [hw2]
                exact hws w2 hw2s
  · simp at h

theorem solve_equation_body_mem (idx : WordIndex) (vars : List (Char × VarDef))
    (pats : List String) (st : PState) (rs : List EqResult) (st' : PState)
    (hbl : ∀ n w, w ∈ idx.byLength n → w ∈ idx.wordlist)
    (hws : ∀ w, w ∈ idx.wordsSet → w ∈ idx.wordlist)
    (h : solve_equation_body idx vars pats st = .ok (rs, st')) :
    ∀ r ∈ rs, r.1 ∈ idx.wordlist ∧ r.2.1.getD r.1 ∈ idx.wordlist := by
  rcases pats with _ | ⟨p1, _ | ⟨p2, _ | ⟨p3, rest⟩⟩⟩
  · simp only [solve_equation_body, List.isEmpty_nil, if_true] at h
    injection h with hpair
    injection hpair with h1 h2
    intro r hr
    rw [← h1] at hr
    simp at hr
  · unfold solve_equation_body at h
    simp only [String.toList, List.isEmpty_cons, Bool.false_eq_true, if_false] at h
    by_cases hv : vars.isEmpty = true
    · rw [if_pos hv] at h
      injection h with hpair
      injection hpair with h1 h2
      intro r hr
      rw [← h1] at hr
      simp at hr
    · rw [if_neg hv] at h
      by_cases hcond : (findVarRefs p1.data).map Prod.snd
          = p1.data.filter (fun c => c ≠ '~')
      · rw [if_pos hcond] at h
        cases hpl : parseRefsLoop vars p1.data st with
        | error e => simp [hpl] at h
        | ok q =>
            obtain ⟨po, st1⟩ := q
            cases po with
            | done ds =>
                simp only [hpl] at h
                intro r hr
                obtain ⟨hm, hn⟩ := eqSingleScan_mem ds
                  (idx.byLength (totalLenOf ds)) st1 rs st' h r hr
                refine ⟨hbl _ _ hm, ?_⟩
                rw [hn]
                exact hbl _ _ hm
            | invalid =>
                simp only [hpl] at h
                injection h with hpair
                injection hpair with h1 h2
                intro r hr
                rw [← h1] at hr
                simp at hr
            | abort =>
                simp only [hpl] at h
                injection h with hpair
                injection hpair with h1 h2
                intro r hr
                rw [← h1] at hr
                simp at hr
      · rw [if_neg hcond] at h
        injection h with hpair
        injection hpair with h1 h2
        intro r hr
        rw [← h1] at hr
        simp at hr
  · unfold solve_equation_body at h
    simp only [String.toList, List.isEmpty_cons, Bool.false_eq_true, if_false] at h
    by_cases hv : vars.isEmpty = true
    · rw [if_pos hv] at h
      injection h with hpair
      injection hpair with h1 h2
      intro r hr
      rw [← h1] at hr
      simp at hr
    · rw [if_neg hv] at h
      cases hb1 : branchSelfReverse idx vars p1 p2 st with
      | error e => simp [hb1] at h
      | ok q =>
          obtain ⟨b1, st1⟩ := q
          cases b1 with
          | abortEmpty =>
              simp only [hb1] at h
              injection h with hpair
              injection hpair with h1 h2
              intro r hr
              rw [← h1] at hr
              simp at hr
          | noMatch =>
              simp only [hb1] at h
              cases hb2 : branchSeqReversal idx vars p1 p2 st1 with
              | error e => simp [hb2] at h
              | ok q2 =>
                  obtain ⟨b2, st2⟩ := q2
                  cases b2 with
                  | noMatch =>
                      simp only [hb2] at h
                      injection h with hpair
                      injection hpair with h1 h2
                      intro r hr
                      rw [← h1] at hr
                      simp at hr
                  | invalidConfig =>
                      simp only [hb2] at h
                      injection h with hpair
                      injection hpair with h1 h2
                      intro r hr
                      rw [← h1] at hr
                      simp at hr
                  | found rs2 =>
                      simp only [hb2] at h
                      injection h with hpair
                      injection hpair with h1 h2
                      intro r hr
                      rw [← h1] at hr
                      simp only [List.nil_append] at hr
                      exact branchSeqReversal_mem idx vars p1 p2 st1 rs2 st2
                        hbl hws hb2 r hr
          | found rs1 =>
              simp only [hb1] at h
              cases hb2 : branchSeqReversal idx vars p1 p2 st1 with
              | error e => simp [hb2] at h
              | ok q2 =>
                  obtain ⟨b2, st2⟩ := q2
                  cases b2 with
                  | noMatch =>
                      simp only [hb2] at h
                      injection h with hpair
                      injection hpair with h1 h2
                      intro r hr
                      rw [← h1] at hr
                      simp only [List.append_nil] at hr
                      exact branchSelfReverse_mem idx vars p1 p2 st rs1 st1
                        hbl hb1 r hr
                  | invalidConfig =>
                      simp only [hb2] at h
                      injection h with hpair
                      injection hpair with h1 h2
                      intro r hr
                      rw [← h1] at hr
                      simp only [List.append_nil] at hr
                      exact branchSelfReverse_mem idx vars p1 p2 st rs1 st1
                        hbl hb1 r hr
                  | found rs2 =>
                      simp only [hb2] at h
                      injection h with hpair
                      injection hpair with h1 h2
                      intro r hr
                      rw [← h1] at hr
                      rcases List.mem_append.mp hr with hr' | hr'
                      · exact branchSelfReverse_mem idx vars p1 p2 st rs1 st1
                          hbl hb1 r hr'
                      · exact branchSeqReversal_mem idx vars p1 p2 st1 rs2 st2
                          hbl hws hb2 r hr'
  · unfold solve_equation_body at h
    simp only [String.toList, List.isEmpty_cons, Bool.false_eq_true, if_false] at h
    by_cases hv : vars.isEmpty = true
    · rw [if_pos hv] at h
      injection h with hpair
      injection hpair with h1 h2
      intro r hr
      rw [← h1] at hr
      simp at hr
    · rw [if_neg hv] at h
      injection h with hpair
      injection hpair with h1 h2
      intro r hr
      rw [← h1] at hr
      simp at hr

theorem solve_equation_mem (idx : WordIndex) (vars : List (Char × VarDef))
    (pats : List String) (st : PState) (rs : List EqResult) (st' : PState)
    (hbl : ∀ n w, w ∈ idx.byLength n → w ∈ idx.wordlist)
    (hws : ∀ w, w ∈ idx.wordsSet → w ∈ idx.wordlist)
    (h : solve_equation idx vars pats st = .ok (rs, st')) :
    ∀ r ∈ rs, r.1 ∈ idx.wordlist ∧ r.2.1.getD r.1 ∈ idx.wordlist := by
  unfold solve_equation at h
  rcases hpt : pyTime st with ⟨t, st1⟩
  simp only [hpt] at h
  exact solve_equation_body_mem idx vars pats _ rs st' hbl hws h

theorem dispatch_mem (idx : WordIndex) (vars : List (Char × VarDef))
    (spr : List String) (st : PState) (out : List EqResult × String) (st' : PState)
    (hbl : ∀ n w, w ∈ idx.byLength n → w ∈ idx.wordlist)
    (hws : ∀ w, w ∈ idx.wordsSet → w ∈ idx.wordlist)
    (h : dispatch idx vars spr st = .ok (out, st')) :
    ∀ r ∈ out.1, r.1 ∈ idx.wordlist ∧ r.2.1.getD r.1 ∈ idx.wordlist := by
  unfold dispatch at h
  by_cases he : ¬vars.isEmpty = true ∧ ¬spr.isEmpty = true
  · rw [if_pos he] at h
    cases hse : solve_equation idx vars spr st with
    | error e => simp [hse] at h
    | ok q =>
        obtain ⟨rs, st1⟩ := q
        simp only [hse] at h
        injection h with hpair
        injection hpair with h1 h2
        intro r hr
        rw [← h1] at hr
        exact solve_equation_mem idx vars spr st rs st1 hbl hws hse r hr
  · rw [if_neg he] at h
    rcases spr with _ | ⟨p, _ | ⟨p2, rest⟩⟩
    · injection h with hpair
      injection hpair with h1 h2
      intro r hr
      rw [← h1] at hr
      simp at hr
    · split at h
      · rename_i p' hp'
        injection hp' with hpp hnil
        subst hpp
        by_cases hsl : startsWithSlash p = true
        · rw [if_pos hsl] at h
          cases hpa : process_anagram_pattern idx p st with
          | error e => simp [hpa] at h
          | ok q =>
              obtain ⟨o, st1⟩ := q
              simp only [hpa] at h
              injection h with hpair
              injection hpair with h1 h2
              intro r hr
              rw [← h1] at hr
              obtain ⟨m, hm, rfl⟩ := List.mem_map.mp hr
              cases o with
              | none => simp at hm
              | some ms1 =>
                  have hmw := process_anagram_subset idx p st (some ms1) st1 hbl hpa
                    ms1 rfl m (by simpa using hm)
                  exact ⟨hmw, hmw⟩
        · rw [if_neg hsl] at h
          cases hf : find_matches_simple_pattern idx p st with
          | error e => simp [hf] at h
          | ok q =>
              obtain ⟨ms1, st1⟩ := q
              simp only [hf] at h
              injection h with hpair
              injection hpair with h1 h2
              intro r hr
              rw [← h1] at hr
              obtain ⟨m, hm, rfl⟩ := List.mem_map.mp hr
              have hmw := find_matches_simple_subset idx p st ms1 st1 hbl hf m hm
              exact ⟨hmw, hmw⟩
      · rename_i hq
        exact absurd hq (by simp)
      · rename_i f1 f2
        exact absurd rfl (f1 p)
    · split at h
      · rename_i p' hp'
        exact absurd hp' (by simp)
      · rename_i hq
        exact absurd hq (by simp)
      · rename_i f1 f2
        cases hil : intersectLoop idx (p :: p2 :: rest) none st with
        | error e => simp [hil] at h
        | ok q =>
            obtain ⟨common, st1⟩ := q
            simp only [hil] at h
            injection h with hpair
            injection hpair with h1 h2
            intro r hr
            rw [← h1] at hr
            obtain ⟨m, hm, rfl⟩ := List.mem_map.mp hr
            cases common with
            | none => simp at hm
            | some c =>
                have hmc : m ∈ c := mem_sortWords.mp (by simpa using hm)
                have hmw := intersectLoop_subset idx (p :: p2 :: rest) none st
                  (some c) st1 hil hbl (by intro c0 hc0; simp at hc0) c rfl m hmc
                exact ⟨hmw, hmw⟩

theorem execute_query_mem (idx : WordIndex) (q : String) (st : PState)
    (res : List EqResult) (ty : String) (st' : PState)
    (hbl : ∀ n w, w ∈ idx.byLength n → w ∈ idx.wordlist)
    (hws : ∀ w, w ∈ idx.wordsSet → w ∈ idx.wordlist)
    (h : execute_query idx q st = .ok ((some res, ty), st')) :
    ∀ r ∈ res, r.1 ∈ idx.wordlist ∧ r.2.1.getD r.1 ∈ idx.wordlist := by
  unfold execute_query at h
  rcases hpt : pyTime st with ⟨t, st1⟩
  simp only [hpt] at h
  cases hdl : parseDefsLoop ((((splitOnSemi (strTrim q).toList).map
      (fun l => strTrim (String.mk l))).filter (fun p => p ≠ "")).filter
      isVarDefClause) [] { st1 with startTime := t, regexCache := [] } with
  | error e =>
      rw [hdl] at h
      simp only [] at h
      simp at h
  | ok qq =>
      obtain ⟨vars, st2⟩ := qq
      rw [hdl] at h
      simp only [] at h
      cases hds : dispatch idx vars ((((splitOnSemi (strTrim q).toList).map
          (fun l => strTrim (String.mk l))).filter (fun p => p ≠ "")).filter
          (fun p => !(isVarDefClause p))) st2 with
      | error e =>
          cases e
          rw [hds] at h
          simp only [] at h
          simp at h
      | ok qd =>
          obtain ⟨⟨rs, ty2⟩, st3⟩ := qd
          rw [hds] at h
          simp only [] at h
          injection h with hpair
          injection hpair with hfst hsnd
          injection hfst with h1 h2
          injection h1 with h1'
          subst h1'
          intro r hr
          exact dispatch_mem idx vars _ st2 (rs, ty2) st3 hbl hws hds r hr

theorem rmatch_single_lit (c : Char) (l : List Char) :
    (rmatch [RTok.lit c] l = true) ↔ l = [c] := by
  cases l with
  | nil => simp [rmatch, rmatchFuel]
  | cons d ds =>
      cases ds with
      | nil =>
          constructor
          · intro h
            have h' : c = d := by simpa [rmatch, rmatchFuel] using h
            rw [h']
          · intro h
            have h' : d = c := by injection h
            subst h'
            simp [rmatch, rmatchFuel]
      | cons e es =>
          constructor
          · intro h
            exfalso
            unfold rmatch at h
            simp only [List.length_cons, List.length_nil] at h
            rw [show (0 : Nat) + 1 + (es.length + 1 + 1) + 1
                = es.length + 1 + 1 + 1 + 1 from by omega] at h
            simp [rmatchFuel] at h
          · intro h
            exact absurd h (by simp)

/-! ### Claim theorems -/

/-- Claim C1, code bug: for the exact-length definition `A=(4:....)` with the
two search clauses `A;~A` over an index holding `evil`, `live` and the
palindrome `noon`, the claim (and the spec's test property) demands exactly
the single unordered pair `(evil, live)` and no word paired with itself.
The code instead also fires the sequence-reversal branch on the same query
— the two relations are not mutually exclusive — and emits the pair a
second and third time and the palindrome paired with itself. -/
theorem C1_selfreverse_pair_duplicates :
    (execute_query (mkIndex ["evil", "live", "noon"]) "A=(4:....);A;~A" stNoClock).map Prod.fst
      = Except.ok (some [("evil", some "live", [('A', "evil")]),
          ("evil", some "live", [('A', "evil")]),
          ("live", some "evil", [('A', "live")]),
          ("noon", some "noon", [('A', "noon")])], "equation") := by
  rfl

/-- Claim C2, code bug: when the deadline expires at the checkpoint inside
the variable-definition parsing loop — which the source places before the
`try` block — the `TimeoutError` propagates out of `execute_query` instead
of being converted to a `(results, resultType)` pair. -/
theorem C2_timeout_escapes_during_def_parsing :
    execute_query (mkIndex ["ab"]) "A=(2:ab);A"
        { startTime := 0, timeout := 5, clocks := [0, 100], lastTime := 0, regexCache := [] }
      = Except.error PyErr.timeoutError := by
  rfl

/-- Claim C3, counterexample: with the dispatch start captured at instant 0
and a 5-second timeout, every checkpoint inside the equation solver runs at
instants 100-102 — far past the dispatch-start deadline 5 — yet the query
completes with an equation result instead of timing out, because
`solve_equation` re-captures `start_time` at instant 100. -/
theorem C3_dispatch_deadline_counterexample :
    (execute_query (mkIndex ["ab"]) "A=(2:*);A"
        { startTime := 0, timeout := 5, clocks := [0, 3, 100, 101, 102], lastTime := 0,
          regexCache := [] }).map Prod.fst
      = Except.ok (some [("ab", none, [('A', "ab")])], "equation") := by
  rfl

/-- Claim C3, amended: equation mode does NOT use the dispatch-start
deadline; `solve_equation` re-captures the start instant as its first
action, so its behaviour is independent of the start time in force when it
is invoked.  (All other matcher invocations check against the dispatch-start
deadline.) -/
theorem C3_solver_recaptures_deadline (idx : WordIndex) (vars : List (Char × VarDef))
    (patterns : List String) (st : PState) (a : Nat) :
    solve_equation idx vars patterns { st with startTime := a }
      = solve_equation idx vars patterns st := by
  cases st with
  | mk s t cl lt rc => cases cl <;> rfl

/-- Claim C4, code bug: a deadline exceeded at the variable-definition
parsing checkpoint does not produce the `(None, "timeout")` return the
claim requires — `execute_query` raises instead of returning, because that
checkpoint sits outside the `try` block. -/
theorem C4_timeout_not_returned_during_def_parsing :
    execute_query (mkIndex ["cat"]) "B=(3:xyz);B"
        { startTime := 0, timeout := 5, clocks := [0, 99], lastTime := 0, regexCache := [] }
      = Except.error PyErr.timeoutError := by
  rfl

/-- Claim C5, counterexample: the escape sequence `\#` does not compile to a
matcher requiring the literal character `#` — the `#` is first replaced by
the consonant-class text, so the escape applies to the inserted `[` and the
matcher demands the 23-character class text literally. -/
theorem C5_escape_hash_counterexample :
    (matches_pattern "#" "\\#" none stNoClock).1 = false
    ∧ (pattern_to_regex "\\#" stNoClock).1 ≠ [RTok.lit '#'] := by
  exact ⟨rfl, by decide⟩

/-- Claim C5, amended: for every character `c` other than the class
shorthands `#` and `@` (which are substituted with class text before escape
processing), the escape sequence `\c` compiles to a matcher accepting
exactly the one-character word `c`, and a pattern consisting of a lone
trailing backslash matches exactly the literal backslash word.  Stated for
a fresh (empty) per-query compilation cache. -/
theorem C5_escape_amended (c : Char) (w : String) (st : PState)
    (h1 : c ≠ '#') (h2 : c ≠ '@') (hc : st.regexCache = []) :
    ((matches_pattern w (String.mk ['\\', c]) none st).1 = true ↔ w = String.mk [c])
    ∧ ((matches_pattern w "\\" none st).1 = true ↔ w = "\\") := by
  have hx : String.mk ['\\', c] ≠ "*" := by
    intro h
    have := congrArg String.toList h
    simp [String.toList] at this
  have hy : String.mk ['\\', c] ≠ "" := by
    intro h
    have := congrArg String.toList h
    simp [String.toList] at this
  have hmem1 : '#' ∉ ['\\', c] := by
    simp only [List.mem_cons, List.mem_singleton, not_or]
    exact ⟨by decide, fun h => h1 h.symm, by simp⟩
  have hmem2 : '@' ∉ ['\\', c] := by
    simp only [List.mem_cons, List.mem_singleton, not_or]
    exact ⟨by decide, fun h => h2 h.symm, by simp⟩
  have hrepl : replaceChar '@' vowelClass (replaceChar '#' consonantClass ['\\', c])
      = ['\\', c] := by
    rw [replaceChar_of_not_mem '#' _ _ hmem1, replaceChar_of_not_mem '@' _ _ hmem2]
  constructor
  · simp only [matches_pattern, matchesPatternCore, if_neg hx, if_neg hy,
      pattern_to_regex, hc, cacheLookup]
    rw [show (String.mk ['\\', c]).toList = ['\\', c] from rfl, hrepl]
    rw [show tokenize ['\\', c] = [RTok.lit c] from rfl]
    rw [rmatch_single_lit]
    constructor
    · intro h
      apply String.ext
      simpa [String.toList] using h
    · intro h
      subst h
      rfl
  · simp only [matches_pattern, matchesPatternCore,
      if_neg (show ("\\" : String) ≠ "*" from by decide),
      if_neg (show ("\\" : String) ≠ "" from by decide),
      pattern_to_regex, hc, cacheLookup]
    rw [show replaceChar '@' vowelClass (replaceChar '#' consonantClass ("\\" : String).toList)
        = ['\\'] from by decide]
    rw [show tokenize ['\\'] = [RTok.lit '\\'] from by decide]
    rw [rmatch_single_lit]
    constructor
    · intro h
      apply String.ext
      simpa [String.toList] using h
    · intro h
      subst h
      rfl

/-- Witness for the amended claim C5 at `c = '.'`. -/
theorem C5_escape_amended_witness :
    ((matches_pattern "." (String.mk ['\\', '.']) none stNoClock).1 = true
        ↔ ("." : String) = String.mk ['.'])
    ∧ ((matches_pattern "." "\\" none stNoClock).1 = true ↔ ("." : String) = "\\") :=
  C5_escape_amended '.' "." stNoClock (by decide) (by decide) rfl

/-- Claim C6, counterexample: after compiling the pattern `#` into a fresh
per-query cache, the cache holds no entry under the exact literal key `#`;
the compiled form was stored under the class-substituted string instead, so
a second request for the literal `#` is not answered from the cache. -/
theorem C6_cache_key_counterexample :
    cacheLookup "#" (pattern_to_regex "#" stNoClock).2.regexCache = none
    ∧ cacheLookup "[bcdfghjklmnpqrstvwxyz]" (pattern_to_regex "#" stNoClock).2.regexCache
        = some (pattern_to_regex "#" stNoClock).1 := by
  exact ⟨rfl, rfl⟩

/-- Claim C6, amended: the per-query cache is keyed by the pattern AFTER the
`#`/`@` class substitution.  For a pattern containing neither `#` nor `@`
that key coincides with the exact literal string, so the compiled form is
found under the literal key; any lookup that hits is answered from the
cache with the state unchanged; and `execute_query` clears the cache at
dispatch start, so its behaviour is independent of the cache it inherits. -/
theorem C6_cache_amended (p : String) (st : PState)
    (h1 : '#' ∉ p.toList) (h2 : '@' ∉ p.toList) :
    cacheLookup p (pattern_to_regex p st).2.regexCache = some (pattern_to_regex p st).1
    ∧ (∀ st' : PState, ∀ r, cacheLookup p st'.regexCache = some r →
        pattern_to_regex p st' = (r, st'))
    ∧ (∀ idx q c, execute_query idx q { st with regexCache := c }
        = execute_query idx q { st with regexCache := [] }) := by
  refine ⟨?_, ?_, ?_⟩
  · cases h : cacheLookup p st.regexCache with
    | some r => simp [pattern_to_regex, h]
    | none =>
        simp only [pattern_to_regex, h]
        rw [replaceChar_of_not_mem '#' _ _ h1,
            replaceChar_of_not_mem '@' _ _ (by simpa using h2)]
        have : String.mk p.toList = p := rfl
        rw [this]
        simp [cacheLookup]
  · intro st' r h
    simp [pattern_to_regex, h]
  · intro idx q c
    cases st with
    | mk s t cl lt rc => cases cl <;> rfl

/-- Witness for the amended claim C6 at the pattern `ab`. -/
theorem C6_cache_amended_witness :
    cacheLookup "ab" (pattern_to_regex "ab" stNoClock).2.regexCache
      = some (pattern_to_regex "ab" stNoClock).1 :=
  (C6_cache_amended "ab" stNoClock (by decide) (by decide)).1

/-- Claim C7, confirmed: for an anagram clause `/<content>` with base-letter
multiset B, `d` dots and `s` stars, a word of the index is returned iff
every letter occurs in it at least as often as in B, its length is exactly
`|B| + d` when `s = 0`, and its length is at least `|B| + d` when `s > 0`.
Stated for a run whose deadline checkpoints all pass (frozen clock). -/
theorem C7_anagram_semantics (lines : List String) (content w : String) (st : PState)
    (h1 : st.clocks = []) (h2 : st.lastTime ≤ st.startTime + st.timeout) :
    ∃ ms st', process_anagram_pattern (mkIndex lines) (String.mk ('/' :: content.toList)) st
        = .ok (some ms, st')
      ∧ (w ∈ ms ↔ (w ∈ processLines lines
          ∧ (∀ c : Char, (content.toList.filter Char.isAlpha).count c ≤ w.toList.count c)
          ∧ (if content.toList.count '*' = 0
              then w.length
                = (content.toList.filter Char.isAlpha).length + content.toList.count '.'
              else (content.toList.filter Char.isAlpha).length + content.toList.count '.'
                ≤ w.length))) := by
  have hpat := process_anagram_frozen (mkIndex lines) (String.mk ('/' :: content.toList))
    st h1 h2 rfl
  have hdrop : String.mk ((String.mk ('/' :: content.toList)).toList.drop 1) = content := rfl
  rw [hdrop] at hpat
  refine ⟨_, st, hpat, ?_⟩
  rw [List.mem_filter]
  have hblen : (sortChars (content.toList.filter Char.isAlpha)).length
      = (content.toList.filter Char.isAlpha).length :=
    length_sortChars _
  have hbcnt : ∀ c, (sortChars (content.toList.filter Char.isAlpha)).count c
      = (content.toList.filter Char.isAlpha).count c :=
    fun c => count_sortChars c _
  by_cases hs0 : content.toList.count '*' = 0
  · rw [if_pos hs0]
    constructor
    · rintro ⟨hcand, hkeep⟩
      rw [anagramCandidates, if_pos hs0, mem_byLength] at hcand
      obtain ⟨hW, hlen⟩ := hcand
      rw [hs0] at hkeep
      rw [anagramKeep_stars0 _ _ _ hlen, allCount_iff] at hkeep
      refine ⟨hW, fun c => ?_, by rw [hlen, hblen]⟩
      have := hkeep c
      rwa [hbcnt c] at this
    · rintro ⟨hW, hcnt, hlen⟩
      have hlen' : w.length = (sortChars (content.toList.filter Char.isAlpha)).length
          + content.toList.count '.' := by rw [hblen, hlen]
      refine ⟨?_, ?_⟩
      · rw [anagramCandidates, if_pos hs0, mem_byLength]
        exact ⟨hW, hlen'⟩
      · rw [hs0, anagramKeep_stars0 _ _ _ hlen', allCount_iff]
        intro c
        rw [hbcnt c]
        exact hcnt c
  · rw [if_neg hs0]
    have hcand : w ∈ anagramCandidates (mkIndex lines)
        (sortChars (content.toList.filter Char.isAlpha))
        (content.toList.count '.') (content.toList.count '*')
        ↔ w ∈ processLines lines
          ∧ (sortChars (content.toList.filter Char.isAlpha)).length
              + content.toList.count '.' ≤ w.length := by
      rw [anagramCandidates, if_neg hs0]
      constructor
      · intro hmem
        obtain ⟨l, hl, hwl⟩ := List.mem_flatMap.mp hmem
        obtain ⟨hlkeys, hlmin⟩ := List.mem_filter.mp hl
        obtain ⟨hW, hlen⟩ := (mem_byLength lines l w).mp hwl
        have : (sortChars (content.toList.filter Char.isAlpha)).length
            + content.toList.count '.' ≤ w.length := by
          simpa using hlen ▸ (by simpa using hlmin)
        exact ⟨hW, this⟩
      · rintro ⟨hW, hge⟩
        refine List.mem_flatMap.mpr ⟨w.length, List.mem_filter.mpr ⟨?_, by simpa using hge⟩, ?_⟩
        · exact (mem_byLengthKeys lines w.length).mpr ⟨w, hW, rfl⟩
        · exact (mem_byLength lines w.length w).mpr ⟨hW, rfl⟩
    rw [hcand]
    constructor
    · rintro ⟨⟨hW, hge⟩, hkeep⟩
      rw [anagramKeep_starsPos _ _ _ _ hs0, Bool.and_eq_true, allCount_iff] at hkeep
      refine ⟨hW, fun c => ?_, by rwa [hblen] at hge⟩
      have := hkeep.2 c
      rwa [hbcnt c] at this
    · rintro ⟨hW, hcnt, hge⟩
      have hge' : (sortChars (content.toList.filter Char.isAlpha)).length
          + content.toList.count '.' ≤ w.length := by rwa [hblen]
      refine ⟨⟨hW, hge'⟩, ?_⟩
      rw [anagramKeep_starsPos _ _ _ _ hs0, Bool.and_eq_true, allCount_iff]
      exact ⟨by simpa using hge', fun c => by rw [hbcnt c]; exact hcnt c⟩

/-- Witness for claim C7: the spec's own test vector, pattern `/act.` over
the words cats, cat, tack. -/
theorem C7_anagram_semantics_witness :
    ∃ ms st', process_anagram_pattern (mkIndex ["cats", "cat", "tack"])
        (String.mk ('/' :: ("act." : String).toList)) stNoClock
        = .ok (some ms, st')
      ∧ ("cats" ∈ ms ↔ (("cats" : String) ∈ processLines ["cats", "cat", "tack"]
          ∧ (∀ c : Char, (("act." : String).toList.filter Char.isAlpha).count c
              ≤ ("cats" : String).toList.count c)
          ∧ (if ("act." : String).toList.count '*' = 0
              then ("cats" : String).length
                = (("act." : String).toList.filter Char.isAlpha).length
                  + ("act." : String).toList.count '.'
              else (("act." : String).toList.filter Char.isAlpha).length
                  + ("act." : String).toList.count '.' ≤ ("cats" : String).length))) :=
  C7_anagram_semantics ["cats", "cat", "tack"] "act." "cats" stNoClock rfl (by decide)

/-- Claim C8, confirmed: in `matches_pattern` a supplied length constraint is
applied before any shortcut — the `*` pattern matches exactly the words
whose length lies in the constraint (and every word when no constraint is
supplied), and the empty pattern matches only the empty word. -/
theorem C8_star_empty_length_gate (w : String) (lo hi : Nat) (st : PState) :
    (matches_pattern w "*" (some (lo, hi)) st).1
        = (decide (lo ≤ w.length) && decide (w.length ≤ hi))
    ∧ (matches_pattern w "*" none st).1 = true
    ∧ ((matches_pattern w "" none st).1 = true ↔ w = "")
    ∧ ((matches_pattern w "" (some (lo, hi)) st).1 = true → w = "") := by
  refine ⟨?_, ?_, ?_, ?_⟩
  · by_cases h : lo ≤ w.length ∧ w.length ≤ hi
    · simp [matches_pattern, matchesPatternCore, h, h.1, h.2]
    · rw [Decidable.not_and_iff_or_not] at h
      rcases h with h | h
      · simp [matches_pattern, matchesPatternCore, h]
      · simp [matches_pattern, matchesPatternCore, h]
  · simp [matches_pattern, matchesPatternCore]
  · simp [matches_pattern, matchesPatternCore,
      show ("" : String) ≠ "*" from by decide]
  · by_cases h : lo ≤ w.length ∧ w.length ≤ hi
    · simp [matches_pattern, matchesPatternCore, h,
        show ("" : String) ≠ "*" from by decide]
    · simp [matches_pattern, h]

/-- Claim C9, confirmed: every word appearing in any result returned by
`execute_query` over a loaded index — the primary word, and the secondary
word when present — is a member of the index's word list.  The conclusion
uses `getD`: when no secondary word exists it degenerates to the primary
membership. -/
theorem C9_results_membership (lines : List String) (q : String) (st : PState)
    (res : List EqResult) (ty : String) (st' : PState) (r : EqResult)
    (h : execute_query (mkIndex lines) q st = .ok ((some res, ty), st'))
    (hr : r ∈ res) :
    r.1 ∈ (mkIndex lines).wordlist ∧ r.2.1.getD r.1 ∈ (mkIndex lines).wordlist := by
  have hbl : ∀ n w, w ∈ (mkIndex lines).byLength n → w ∈ (mkIndex lines).wordlist := by
    intro n w hw
    obtain ⟨hW, _⟩ := (mem_byLength lines n w).mp hw
    exact mem_sortWords.mpr hW
  have hws : ∀ w, w ∈ (mkIndex lines).wordsSet → w ∈ (mkIndex lines).wordlist := by
    intro w hw
    exact mem_sortWords.mpr hw
  exact execute_query_mem (mkIndex lines) q st res ty st' hbl hws h r hr

/-- Witness for claim C9: the equation query `A=(4:....);A;~A` over the
index loaded from evil/live, at its first result `(evil, live)`. -/
theorem C9_results_membership_witness :
    ("evil" : String) ∈ (mkIndex ["evil", "live"]).wordlist
      ∧ ((some "live").getD "evil") ∈ (mkIndex ["evil", "live"]).wordlist :=
  C9_results_membership ["evil", "live"] "A=(4:....);A;~A" stNoClock
    [("evil", some "live", [('A', "evil")]),
     ("evil", some "live", [('A', "evil")]),
     ("live", some "evil", [('A', "live")])]
    "equation"
    { startTime := 0, timeout := 1000, clocks := [], lastTime := 0,
      regexCache := [("....", [RTok.dot, RTok.dot, RTok.dot, RTok.dot])] }
    ("evil", some "live", [('A', "evil")]) rfl (by simp)

/-- Claim C10, confirmed: the engine's `(results, resultType)` pair is
identical for all values of the display limit; `maxResults` reaches only
the rendering step, which truncates after the full result sequence has been
computed. -/
theorem C10_maxresults_noninterference (idx : WordIndex) (q : String)
    (m₁ m₂ t : Nat) (cl : List Nat) :
    (run_search idx q m₁ t cl).map Prod.fst = (run_search idx q m₂ t cl).map Prod.fst := by
  unfold run_search
  cases execute_query idx q (initState t cl) with
  | error e => rfl
  | ok v =>
      obtain ⟨⟨r, ty⟩, s⟩ := v
      rfl

end WordFinder
